import Mathlib

/-!
Shallow embedding of the `sayori11/scraper` repository (src/base.py, src/scraper.py).

Strings are modelled as `List Char` internally (Python `str` is a sequence of
characters); `String` wrappers appear at the API boundary.  The pieces of
`urllib.parse` that the source calls (`urlparse`, `urlunparse`, `parse_qs`,
`urlencode`, `urljoin`) are embedded following CPython's implementation, with
two documented abstractions: percent encoding and plus encoding are the identity
(the repository never builds URLs containing `%` or `+`), and the rarely-used
`params` component (a `;` in the last path segment) is folded into the path.
HTML fetching/parsing (curl_cffi + BeautifulSoup) is the external collaborator:
a page is modelled as the sequence of anchors the nested `find_all` iteration
of `extract_links` visits.
-/

namespace Scraper

/-! ### Character classes (ASCII model of the Python predicates used) -/

def isAsciiAlpha (c : Char) : Bool :=
  ('a' ≤ c && c ≤ 'z') || ('A' ≤ c && c ≤ 'Z')

def isAsciiDigit (c : Char) : Bool :=
  '0' ≤ c && c ≤ '9'

/-- Characters allowed in a URL scheme (`urllib.parse.scheme_chars`). -/
def isSchemeChar (c : Char) : Bool :=
  isAsciiAlpha c || isAsciiDigit c || c = '+' || c = '-' || c = '.'

/-- The regex class `\w` of `re.sub(r"[^\w\-\.]", "_", ...)`, ASCII model. -/
def isWordChar (c : Char) : Bool :=
  isAsciiAlpha c || isAsciiDigit c || c = '_'

/-! ### Splitting character lists (Python `str.split` / `str.split(sep, 1)`) -/

/-- `s.split(c, 1)`: split at the first occurrence of `c`, if any. -/
def splitFirst (c : Char) : List Char → Option (List Char × List Char)
  | [] => none
  | x :: xs =>
    if x = c then some ([], xs)
    else (splitFirst c xs).map (fun p => (x :: p.1, p.2))

/-- `s.split(c)`: split at every occurrence of `c` (`"".split(c) == [""]`). -/
def splitAllChar (c : Char) : List Char → List (List Char)
  | [] => [[]]
  | x :: xs =>
    if x = c then [] :: splitAllChar c xs
    else
      match splitAllChar c xs with
      | [] => [[x]]
      | h :: t => (x :: h) :: t

/-! ### Decimal numerals (Python `str(int)` / `int(str)`) -/

def digitChar (n : Nat) : Char := Char.ofNat (48 + n)

def natReprAux : Nat → Nat → List Char
  | 0, n => [digitChar n]
  | fuel + 1, n =>
    if n < 10 then [digitChar n] else natReprAux fuel (n / 10) ++ [digitChar (n % 10)]

def natReprL (n : Nat) : List Char := natReprAux n n

/-- `str(i)` for a Python `int`. -/
def intReprL : Int → List Char
  | .ofNat n => natReprL n
  | .negSucc n => '-' :: natReprL (n + 1)

def digitVal (c : Char) : Nat := c.toNat - 48

def digitsVal (l : List Char) : Nat := l.foldl (fun a c => 10 * a + digitVal c) 0

def parseDigits (l : List Char) : Option Nat :=
  if l ≠ [] ∧ l.all isAsciiDigit then some (digitsVal l) else none

/-- `int(s)` (restricted to an optional sign followed by digits; `int` raising
`ValueError` is modelled as `none`). -/
def parseIntL (l : List Char) : Option Int :=
  if l.take 1 = ['-'] then (parseDigits l.tail).map (fun n => -(n : Int))
  else if l.take 1 = ['+'] then (parseDigits l.tail).map (fun n => (n : Int))
  else (parseDigits l).map (fun n => (n : Int))

/-! ### `urllib.parse.urlparse` / `urlunparse` -/

structure UrlParts where
  scheme : List Char
  netloc : List Char
  path : List Char
  query : List Char
  fragment : List Char
deriving DecidableEq

/-- A character ending the netloc scan of `_splitnetloc`. -/
def isNetlocEnd (c : Char) : Bool := c = '/' || c = '?' || c = '#'

/-- `_splitnetloc`: the netloc extends to the first `/`, `?` or `#`. -/
def takeNetloc : List Char → List Char × List Char
  | [] => ([], [])
  | x :: xs =>
    if isNetlocEnd x then ([], x :: xs)
    else
      let r := takeNetloc xs
      (x :: r.1, r.2)

/-- Scheme extraction of `urlsplit`: chars before the first `:` form the
scheme when nonempty, starting with a letter, and all scheme chars. -/
def splitScheme (url : List Char) : List Char × List Char :=
  match splitFirst ':' url with
  | none => ([], url)
  | some (pre, post) =>
    if pre ≠ [] ∧ isAsciiAlpha (pre.headD ' ') ∧ pre.all isSchemeChar then
      (pre.map Char.toLower, post)
    else ([], url)

def urlsplitL (url : List Char) : UrlParts :=
  let s := splitScheme url
  let n :=
    if s.2.take 2 = ['/', '/'] then takeNetloc (s.2.drop 2) else ([], s.2)
  let f :=
    match splitFirst '#' n.2 with
    | some p => (p.1, p.2)
    | none => (n.2, [])
  let q :=
    match splitFirst '?' f.1 with
    | some p => (p.1, p.2)
    | none => (f.1, [])
  { scheme := s.1, netloc := n.1, path := q.1, query := q.2, fragment := f.2 }

def urlunsplitL (u : UrlParts) : List Char :=
  let url :=
    if u.netloc ≠ [] ∨ u.path.take 2 = ['/', '/'] then
      let p := if u.path ≠ [] ∧ u.path.take 1 ≠ ['/'] then '/' :: u.path else u.path
      '/' :: '/' :: (u.netloc ++ p)
    else u.path
  let url := if u.scheme ≠ [] then u.scheme ++ ':' :: url else url
  let url := if u.query ≠ [] then url ++ '?' :: u.query else url
  if u.fragment ≠ [] then url ++ '#' :: u.fragment else url

/-- `urlparse(url, default_scheme)`. -/
def urlsplitDefL (url defScheme : List Char) : UrlParts :=
  let u := urlsplitL url
  if u.scheme = [] then { u with scheme := defScheme } else u

/-! ### `parse_qs` / `urlencode(..., doseq=True)` -/

/-- One piece of `parse_qsl`: empty pieces, pieces without `=`, and pieces
with an empty value are dropped. -/
def parsePiece (nv : List Char) : Option (List Char × List Char) :=
  if nv = [] then none
  else
    match splitFirst '=' nv with
    | none => none
    | some p => if p.2 = [] then none else some p

/-- `parse_qsl` with default options: pieces split on `&`. -/
def parse_qsl (qs : List Char) : List (List Char × List Char) :=
  (splitAllChar '&' qs).filterMap parsePiece

/-- Insert one `(name, value)` into the ordered dict built by `parse_qs`. -/
def dictAppend (k v : List Char) :
    List (List Char × List (List Char)) → List (List Char × List (List Char))
  | [] => [(k, [v])]
  | e :: t => if e.1 = k then (e.1, e.2 ++ [v]) :: t else e :: dictAppend k v t

def parse_qs (qs : List Char) : List (List Char × List (List Char)) :=
  (parse_qsl qs).foldl (fun d p => dictAppend p.1 p.2 d) []

/-- Python dict assignment `d[k] = v` on the ordered dict. -/
def dictSet (k : List Char) (v : List (List Char)) :
    List (List Char × List (List Char)) → List (List Char × List (List Char))
  | [] => [(k, v)]
  | e :: t => if e.1 = k then (k, v) :: t else e :: dictSet k v t

def dictFind (k : List Char) :
    List (List Char × List (List Char)) → Option (List (List Char))
  | [] => none
  | e :: t => if e.1 = k then some e.2 else dictFind k t

/-- Python's `sep.join(pieces)` for a one-character separator. -/
def joinSep (c : Char) : List (List Char) → List Char
  | [] => []
  | [p] => p
  | p :: q :: rest => p ++ c :: joinSep c (q :: rest)

def urlencodeL (d : List (List Char × List (List Char))) : List Char :=
  joinSep '&' (List.flatten (d.map fun p => p.2.map fun v => p.1 ++ '=' :: v))

/-! ### `urljoin` -/

def uses_relative : List (List Char) :=
  ["", "ftp", "http", "gopher", "nntp", "imap", "wais", "file", "https",
   "shttp", "mms", "prospero", "rtsp", "rtspu", "sftp", "svn", "svn+ssh",
   "ws", "wss"].map String.data

def uses_netloc : List (List Char) :=
  ["", "ftp", "http", "gopher", "nntp", "telnet", "imap", "wais", "file",
   "mms", "https", "shttp", "snews", "prospero", "rtsp", "rtspu", "rsync",
   "svn", "svn+ssh", "sftp", "nfs", "git", "git+ssh", "ws", "wss"].map String.data

/-- `segments[1:-1] = filter(None, segments[1:-1])`: drop empty interior
segments, keeping the last element. -/
def filterMidGo : List (List Char) → List (List Char)
  | [] => []
  | [x] => [x]
  | x :: xs => if x = [] then filterMidGo xs else x :: filterMidGo xs

def filterMid : List (List Char) → List (List Char)
  | [] => []
  | a :: rest => a :: filterMidGo rest

/-- Dot-segment resolution loop of `urljoin` (accumulator is reversed). -/
def resolveSegs : List (List Char) → List (List Char) → List (List Char)
  | acc, [] => acc.reverse
  | acc, s :: rest =>
    if s = ['.', '.'] then resolveSegs acc.tail rest
    else if s = ['.'] then resolveSegs acc rest
    else resolveSegs (s :: acc) rest

def urljoinL (base url : List Char) : List Char :=
  if base = [] then url
  else if url = [] then base
  else
    let b := urlsplitL base
    let r := urlsplitDefL url b.scheme
    if r.scheme ≠ b.scheme ∨ r.scheme ∉ uses_relative then url
    else if r.scheme ∈ uses_netloc ∧ r.netloc ≠ [] then urlunsplitL r
    else
      let netloc := if r.scheme ∈ uses_netloc then b.netloc else r.netloc
      if r.path = [] then
        let query := if r.query = [] then b.query else r.query
        urlunsplitL { scheme := r.scheme, netloc := netloc, path := b.path,
                      query := query, fragment := r.fragment }
      else
        let base_parts0 := splitAllChar '/' b.path
        let base_parts :=
          if base_parts0.getLastD [] ≠ [] then base_parts0.dropLast else base_parts0
        let segments :=
          if r.path.take 1 = ['/'] then splitAllChar '/' r.path
          else filterMid (base_parts ++ splitAllChar '/' r.path)
        let resolved0 := resolveSegs [] segments
        let resolved :=
          if segments.getLastD [] = ['.', '.'] ∨ segments.getLastD [] = ['.'] then
            resolved0 ++ [[]]
          else resolved0
        let joined := joinSep '/' resolved
        let path := if joined = [] then ['/'] else joined
        urlunsplitL { scheme := r.scheme, netloc := netloc, path := path,
                      query := r.query, fragment := r.fragment }

/-! ### `PucciScraper.get_next_page_url` (src/scraper.py lines 125-139) -/

def pageKey : List Char := ['p', 'a', 'g', 'e']

/-- Rebuild `current_url` with `query_params["page"] = [str(newPage)]`. -/
def rebuildWithPage (parsed : UrlParts) (newPage : Int) : List Char :=
  let query_params := parse_qs parsed.query
  let qp := dictSet pageKey [intReprL newPage] query_params
  urlunsplitL { parsed with query := urlencodeL qp }

/-- `get_next_page_url` when `current_page` is not `None` (the form every call
inside `extract_products` takes). -/
def get_next_page_url_aux (current_url : String) (current_page : Int) : Int × String :=
  (current_page + 1,
   (rebuildWithPage (urlsplitL current_url.data) (current_page + 1)).asString)

/-- `int(query_params.get("page", ["0"])[0])`; `none` models the `ValueError`
raised on a non-numeric page parameter (the `some []` case cannot arise from
`parse_qs` and is also mapped to `none`). -/
def derivedPage (parsed : UrlParts) : Option Int :=
  match dictFind pageKey (parse_qs parsed.query) with
  | some (v :: _) => parseIntL v
  | some [] => none
  | none => parseIntL ['0']

/-- `get_next_page_url(current_url, current_page)`. -/
def get_next_page_url (current_url : String) (current_page : Option Int) :
    Option (Int × String) :=
  match current_page with
  | some p => some (get_next_page_url_aux current_url p)
  | none =>
    (derivedPage (urlsplitL current_url.data)).map
      (fun p => get_next_page_url_aux current_url p)

/-! ### `BaseScraper.normalize_url`, `get_id_from_url`, `_is_internal_link` -/

def stripWWW (netloc : List Char) : List Char :=
  if netloc.take 4 = ['w', 'w', 'w', '.'] then netloc.drop 4 else netloc

/-- `normalize_url` (src/base.py lines 19-27). -/
def normalize_url (url : String) : String :=
  let parsed := urlsplitL url.data
  let netloc := stripWWW (parsed.netloc.map Char.toLower)
  (urlunsplitL { parsed with scheme := ['h', 't', 't', 'p', 's'], netloc := netloc }).asString

def stripUnderscoreEnds (l : List Char) : List Char :=
  ((l.dropWhile (· = '_')).reverse.dropWhile (· = '_')).reverse

/-- `PucciScraper.get_id_from_url` (src/scraper.py lines 18-22). -/
def get_id_from_url (url : String) : String :=
  let parsed := urlsplitL url.data
  let clean := parsed.netloc ++ parsed.path
  let subbed := clean.map fun c => if isWordChar c || c = '-' || c = '.' then c else '_'
  (stripUnderscoreEnds subbed).asString

/-- `_is_internal_link` (src/scraper.py lines 119-123); `root` is the stored
`self.url` (already normalized by `BaseScraper.__init__`). -/
def is_internal_link (root url : String) : Bool :=
  (urlsplitL (normalize_url url).data).netloc = (urlsplitL root.data).netloc

/-! ### `PucciScraper.extract_links` (src/scraper.py lines 42-78) -/

/-- One `<a href=...>` element as the nested `find_all` iteration visits it:
its `class` attribute list, stripped visible text, and `href`. -/
structure Anchor where
  classes : List String
  text : String
  href : String
deriving DecidableEq

/-- One collected row `{"id": ..., "text": ..., "url": ...}`. -/
structure Link where
  id : String
  text : String
  url : String
deriving DecidableEq

def lowerS (s : String) : String := ⟨s.data.map Char.toLower⟩

def startsWithL : List Char → List Char → Bool
  | [], _ => true
  | _ :: _, [] => false
  | a :: as, b :: bs => a = b && startsWithL as bs

/-- Python's `needle in haystack` for strings: contiguous substring test. -/
def isSubL (needle : List Char) : List Char → Bool
  | [] => needle.isEmpty
  | h :: t => startsWithL needle (h :: t) || isSubL needle t

def substrB (needle hay : String) : Bool := isSubL needle.data hay.data

/-- The classification condition of lines 58-62: note that only the link
attributes are lowercased, never `tag` itself. -/
def linkMatches (tag : String) (a : Anchor) : Bool :=
  a.classes.any (fun c => substrB tag (lowerS c)) ||
    substrB tag (lowerS a.href) || substrB tag (lowerS a.text)

/-- `normalize_url(urljoin(self.url, href))`. -/
def mkFullUrl (root href : String) : String :=
  normalize_url (urljoinL root.data href.data).asString

/-- The row built for a retained anchor. -/
def mkLink (root : String) (a : Anchor) : Link :=
  { id := get_id_from_url a.href, text := a.text, url := mkFullUrl root a.href }

def extract_links_go (root tag : String) :
    List Anchor → List String → List Link
  | [], _ => []
  | a :: rest, link_urls =>
    if a.text = "" || a.text.length < 2 then extract_links_go root tag rest link_urls
    else if linkMatches tag a then
      let full := mkFullUrl root a.href
      if is_internal_link root full then
        if full ∈ link_urls then extract_links_go root tag rest link_urls
        else mkLink root a :: extract_links_go root tag rest (full :: link_urls)
      else extract_links_go root tag rest link_urls
    else extract_links_go root tag rest link_urls

/-- `extract_links(url, tag)` applied to the anchors of the fetched page. -/
def extract_links (root tag : String) (page : List Anchor) : List Link :=
  extract_links_go root tag page []

/-! ### `PucciScraper.extract_products` (src/scraper.py lines 80-117) -/

structure PageState where
  page : Int
deriving DecidableEq

/-- The returned `{"state": {"page": ...}, "rows": ...}` dictionary. -/
structure ProductsData where
  state : PageState
  rows : List Link
deriving DecidableEq

structure LoopState where
  current_page : Int
  next_url : String
  seen_urls : List String
  product_links : List String
  products : List Link

/-- The `for product in products` body (lines 97-101): thread the
`product_links` set and the `current_products` list; the `Bool` is whether
`new_products` ends up nonempty. -/
def processPage : List String → List Link → List Link → List String × List Link × Bool
  | plinks, acc, [] => (plinks, acc, false)
  | plinks, acc, p :: rest =>
    if p.url ∈ plinks then processPage plinks acc rest
    else
      let r := processPage (p.url :: plinks) (acc ++ [p]) rest
      (r.1, r.2.1, true)

/-- The `while next_url and next_url not in seen_urls` loop (lines 91-115).
`fuel = pages_limit - 1 - page_count`: the cap branch (`page_count >=
self.pages_limit`) fires exactly when `fuel` is exhausted after an iteration.
The second output is the trace of URLs fetched in this invocation. -/
def extractLoop (root : String) (fetchPage : String → List Anchor) :
    Nat → LoopState → List String → ProductsData × List String
  | fuel, st, trace =>
    if st.next_url = "" ∨ st.next_url ∈ st.seen_urls then
      ({ state := { page := st.current_page }, rows := st.products }, trace)
    else
      let seen' := st.next_url :: st.seen_urls
      let fetched := extract_links root "products" (fetchPage st.next_url)
      let r := processPage st.product_links st.products fetched
      let trace' := trace ++ [st.next_url]
      if r.2.2 = false then
        ({ state := { page := st.current_page - 1 }, rows := r.2.1 }, trace')
      else
        let nxt := get_next_page_url_aux st.next_url st.current_page
        match fuel with
        | 0 => ({ state := { page := nxt.1 - 1 }, rows := r.2.1 }, trace')
        | fuel' + 1 =>
          extractLoop root fetchPage fuel'
            { current_page := nxt.1, next_url := nxt.2, seen_urls := seen',
              product_links := r.1, products := r.2.1 } trace'

/-- `extract_products(url, data)` instrumented with the fetch trace.
`root` is `self.url`, `fetchPage` the page-fetching collaborator
(`get_soup` + BeautifulSoup), `pages_limit` is `self.pages_limit` (3). -/
def extract_productsT (root : String) (fetchPage : String → List Anchor)
    (pages_limit : Nat) (url : String) (data : Option ProductsData) :
    ProductsData × List String :=
  let current_page : Int := match data with | none => 0 | some d => d.state.page
  let current_products : List Link := match data with | none => [] | some d => d.rows
  let fst := get_next_page_url_aux url current_page
  extractLoop root fetchPage (pages_limit - 1)
    { current_page := fst.1, next_url := fst.2, seen_urls := [],
      product_links := [], products := current_products } []

def extract_products (root : String) (fetchPage : String → List Anchor)
    (pages_limit : Nat) (url : String) (data : Option ProductsData) : ProductsData :=
  (extract_productsT root fetchPage pages_limit url data).1

/-! ### `PucciScraper.directory` (src/scraper.py lines 31-40) -/

/-- `directory(tag, parent_data, data)`: the Python function falls off the end
(returns `None`) for any tag other than `"collections"` / `"products"`. -/
def directory (root : String) (fetchPage : String → List Anchor)
    (pages_limit : Nat) (tag : String) (parent_url : String)
    (data : Option ProductsData) : Option ProductsData :=
  if tag = "collections" then
    some { state := { page := 0 }, rows := extract_links root tag (fetchPage parent_url) }
  else if tag = "products" then
    some (extract_products root fetchPage pages_limit parent_url data)
  else
    none

/-! ### Checkpoint store, `scrape_directory`, `scrape_detail`
    (src/base.py lines 42-65 and 168-190) -/

/-- `load_json(tag)` result: `none` when the stage directory does not exist,
otherwise the id -> row mapping parsed from the stage's files (possibly
empty). -/
def Store (α : Type) : Type := String → Option (List (String × α))

/-- `write_json(tag, data)`: one file per id; files for ids not in `data`
are left in place. -/
def write_json {α : Type} (store : Store α) (tag : String)
    (data : List (String × α)) : Store α :=
  fun t =>
    if t = tag then
      some (((store tag).getD []).filter
              (fun e => ¬ data.any (fun n => n.1 = e.1)) ++ data)
    else store t

/-- `scrape_directory(tag, parent_tag)`.  `extractDir` stands for
`extract_directory` (its arguments: tag, prior checkpoint of `tag`, parent
checkpoint); the result pairs the returned mapping with the store after
`write_json`.  An `Except.error` models the raised `ValueError`,
in which case no write happens. -/
def scrape_directory {α : Type}
    (extractDir : String → Option (List (String × α)) → Option (List (String × α)) →
      List (String × α))
    (store : Store α) (tag : String) (parent_tag : Option String) :
    Except String (List (String × α) × Store α) :=
  let tag_data := store tag
  match parent_tag with
  | none =>
    let scraped := extractDir tag tag_data none
    .ok (scraped, write_json store tag scraped)
  | some p =>
    match store p with
    | none => .error ("No data found for parent tag: " ++ p)
    | some pd =>
      if pd.isEmpty then .error ("No data found for parent tag: " ++ p)
      else
        let scraped := extractDir tag tag_data (some pd)
        .ok (scraped, write_json store tag scraped)

/-- `scrape_detail(tag, parent_tag)`; `extractDet` stands for
`extract_detail`. -/
def scrape_detail {α : Type}
    (extractDet : String → List (String × α) → List (String × α))
    (store : Store α) (tag : String) (parent_tag : String) :
    Except String (List (String × α) × Store α) :=
  match store parent_tag with
  | none => .error ("No data found for tag: " ++ parent_tag)
  | some d =>
    if d.isEmpty then .error ("No data found for tag: " ++ parent_tag)
    else
      let scraped := extractDet tag d
      .ok (scraped, write_json store tag scraped)

/-- The store left behind by a `scrape_directory` call: unchanged when the
call raised. -/
def scrape_directory_store {α : Type}
    (extractDir : String → Option (List (String × α)) → Option (List (String × α)) →
      List (String × α))
    (store : Store α) (tag : String) (parent_tag : Option String) : Store α :=
  match scrape_directory extractDir store tag parent_tag with
  | .ok r => r.2
  | .error _ => store

/-- The store left behind by a `scrape_detail` call: unchanged when the call
raised. -/
def scrape_detail_store {α : Type}
    (extractDet : String → List (String × α) → List (String × α))
    (store : Store α) (tag : String) (parent_tag : String) : Store α :=
  match scrape_detail extractDet store tag parent_tag with
  | .ok r => r.2
  | .error _ => store

/-! ### Page-number view of the pagination loop

`extract_products` drives its loop by URL strings; over the base URL
`https://example.com` those URLs are exactly `pageUrl k` for increasing `k`,
and the loop is equivalent (proved below) to the page-number-indexed
recursion `runSpec`. -/

def exBase : String := "https://example.com"

def pageParts (i : Int) : UrlParts :=
  { scheme := "https".data, netloc := "example.com".data, path := [],
    query := pageKey ++ '=' :: intReprL i, fragment := [] }

/-- The URL `https://example.com?page=i`. -/
def pageUrl (i : Int) : String := (urlunsplitL (pageParts i)).asString

/-- `deepget(data, ["state", "page"], 0)`. -/
def cursorOf : Option ProductsData → Int
  | none => 0
  | some d => d.state.page

/-- `deepget(data, ["rows"], [])`. -/
def rowsOf : Option ProductsData → List Link
  | none => []
  | some d => d.rows

/-- The loop of `extract_products` re-indexed by page numbers: iteration `k`
processes page `k`; on stall the page counter becomes `k - 1`, on cap
`(k + 1) - 1`.  The trace lists the page numbers fetched. -/
def runSpec (pages : Int → List Link) :
    Nat → Int → List String → List Link → List Int → ProductsData × List Int
  | fuel, k, plinks, acc, tr =>
    let r := processPage plinks acc (pages k)
    let tr' := tr ++ [k]
    if r.2.2 = false then ({ state := { page := k - 1 }, rows := r.2.1 }, tr')
    else
      match fuel with
      | 0 => ({ state := { page := k + 1 - 1 }, rows := r.2.1 }, tr')
      | fuel' + 1 => runSpec pages fuel' (k + 1) r.1 r.2.1 tr'

def urlsOf (l : List Link) : List String := l.map Link.url

/-- URLs of pages `s, s+1, ..., s+n-1`. -/
def pagesUrls (pages : Int → List Link) (s : Int) : Nat → List String
  | 0 => []
  | n + 1 => pagesUrls pages s n ++ urlsOf (pages (s + n))

/-- The sublist of `l` appended by the `for product in products` body when the
seen-set is `plinks`. -/
def appendedOf (plinks : List String) (l : List Link) : List Link :=
  (processPage plinks [] l).2.1

/-- First-occurrence-by-URL dedup of one page. -/
def dedupWithin (l : List Link) : List Link := appendedOf [] l

/-- Rows collected from `n` consecutive pages starting at `s` when every page
is URL-disjoint from the pages before it. -/
def pureRows (pages : Int → List Link) : Int → Nat → List Link
  | _, 0 => []
  | s, n + 1 => dedupWithin (pages s) ++ pureRows pages (s + 1) n

/-- Rows appended by steps `m, m+1, ..., m+n-1` of an invocation whose first
fetched page is `s0` (the seen-set at step `j` is `pagesUrls pages s0 j`). -/
def collectedSeg (pages : Int → List Link) (s0 : Int) : Nat → Nat → List Link
  | _, 0 => []
  | m, n + 1 =>
    appendedOf (pagesUrls pages s0 m) (pages (s0 + m)) ++ collectedSeg pages s0 (m + 1) n

/-- `N` capped invocations, each resuming from the previous invocation's
returned checkpoint; `cs` is the cap schedule. -/
def runSchedule (root : String) (fp : String → List Anchor) (url : String) :
    List Nat → Option ProductsData → Option ProductsData
  | [], d => d
  | c :: cs, d => runSchedule root fp url cs (some (extract_products root fp c url d))

/-! ### Helpers for concrete instantiations -/

def dropPre? : List Char → List Char → Option (List Char)
  | [], l => some l
  | _ :: _, [] => none
  | p :: ps, x :: xs => if x = p then dropPre? ps xs else none

/-- A page-fetching collaborator serving `ap k` at `pageUrl k`: used to
instantiate universally quantified theorems at concrete page sequences. -/
def fetchOfA (ap : Int → List Anchor) : String → List Anchor := fun u =>
  match dropPre? ("https://example.com?page=").data u.data with
  | some rest =>
    match parseIntL rest with
    | some k => ap k
    | none => []
  | none => []

/-! ### Spec-side comparison definitions -/

/-- Key of one raw `&`-separated query piece (text before the first `=`, or
the whole piece). -/
def specKeyOf (p : List Char) : List Char :=
  match splitFirst '=' p with
  | some kv => kv.1
  | none => p

/-- Following the spec's words for C6: the query of `currentUrl` with its
`page` parameter rewritten in place and every other parameter preserved
verbatim (appended at the end when absent). -/
def specSetPageQ (q newv : List Char) : List Char :=
  let pieces := splitAllChar '&' q
  if pieces.any (fun p => specKeyOf p = pageKey) then
    joinSep '&'
      (pieces.map fun p => if specKeyOf p = pageKey then pageKey ++ '=' :: newv else p)
  else if q = [] then pageKey ++ '=' :: newv
  else q ++ '&' :: (pageKey ++ '=' :: newv)

/-- Following the spec's words for C6: `currentUrl` with its page query
parameter rewritten to `newPage` and all other query parameters preserved. -/
def specNextUrl (url : String) (newPage : Int) : String :=
  let u := urlsplitL url.data
  (urlunsplitL { u with query := specSetPageQ u.query (intReprL newPage) }).asString

/-- Following the spec's words for C7: `needle` occurs as a case-insensitive
substring of `hay`. -/
def ciSubstr (needle hay : String) : Bool :=
  isSubL (lowerS needle).data (lowerS hay).data

/-! ### Concrete scenario data -/

def ancA : Anchor := ⟨[], "Product A", "/products/a"⟩

def ancB : Anchor := ⟨[], "Product B", "/products/b"⟩

def ancC : Anchor := ⟨[], "Product C", "/products/c"⟩

def linkA : Link := mkLink exBase ancA

def linkB : Link := mkLink exBase ancB

def linkC : Link := mkLink exBase ancC

/-- C1 counterexample pages: page 4 repeats A, page 5 is empty. -/
def fetchC1 : String → List Anchor := fun u =>
  if u = "https://example.com?page=1" then [ancA]
  else if u = "https://example.com?page=2" then [ancB]
  else if u = "https://example.com?page=3" then [ancC]
  else if u = "https://example.com?page=4" then [ancA]
  else []

/-- C2 counterexample pages: page 1 serves A (already in the checkpoint). -/
def fetchC2 : String → List Anchor := fun u =>
  if u = "https://example.com?page=1" then [ancA] else []

/-- C3 counterexample pages: pages 1-4 each new, page 5 repeats A. -/
def fetchC3 : String → List Anchor := fun u =>
  if u = "https://example.com?page=1" then [ancA]
  else if u = "https://example.com?page=2" then [ancB]
  else if u = "https://example.com?page=3" then [ancC]
  else if u = "https://example.com?page=4" then [⟨[], "Product D", "/products/d"⟩]
  else [ancA]

/-- The C5 end-to-end example: page 0 holds A, B; page 1 holds B, C; pages
2 and beyond repeat A, B, C. -/
def fetchC5 : String → List Anchor := fun u =>
  if u = "https://example.com?page=0" then [ancA, ancB]
  else if u = "https://example.com?page=1" then [ancB, ancC]
  else [ancA, ancB, ancC]

/-- C1 witness pages (through `fetchOfA`): pairwise-disjoint pages 1, 2;
page 3 empty. -/
def apW1 : Int → List Anchor := fun i =>
  if i = 1 then [ancA] else if i = 2 then [ancB] else []

/-- C3 witness pages: page 1 new, page 2 repeats page 1. -/
def apW3 : Int → List Anchor := fun i =>
  if i = 1 then [ancA] else if i = 2 then [ancA] else []

/-- C4 witness pages: every page carries one fresh URL. -/
def apW4 : Int → List Anchor := fun i =>
  [⟨[], "Product X", ("/products/x" ++ (intReprL i).asString : String)⟩]

/-! ### Well-formedness predicates for the roundtrip lemmas -/

/-- An ordered query dict as produced by `parse_qs`: nonempty value lists,
no `&` or `=` in keys, no `&` in values, values nonempty, distinct keys. -/
def QDictWF (d : List (List Char × List (List Char))) : Prop :=
  (∀ p ∈ d, p.2 ≠ [] ∧ '&' ∉ p.1 ∧ '=' ∉ p.1 ∧ ∀ v ∈ p.2, v ≠ [] ∧ '&' ∉ v) ∧
    (d.map Prod.fst).Nodup

/-- The individual `(name, value)` pairs `urlencode(d, doseq=True)` writes. -/
def flatPairs (d : List (List Char × List (List Char))) : List (List Char × List Char) :=
  List.flatten (d.map fun p => p.2.map fun v => (p.1, v))

/-- The `name=value` pieces `urlencode(d, doseq=True)` joins with `&`. -/
def qsPieces (d : List (List Char × List (List Char))) : List (List Char) :=
  List.flatten (d.map fun p => p.2.map fun v => p.1 ++ '=' :: v)

/-- Facts `parse_qs q` guarantees about each of its entries. -/
def EntryPred (q : List Char) (e : List Char × List (List Char)) : Prop :=
  e.2 ≠ [] ∧ '&' ∉ e.1 ∧ '=' ∉ e.1 ∧ (∀ x ∈ e.1, x ∈ q) ∧
    ∀ v ∈ e.2, v ≠ [] ∧ '&' ∉ v ∧ ∀ x ∈ v, x ∈ q

/-- URL components that survive `urlunparse` followed by `urlparse`
unchanged: an authority-form URL with a lowercase scheme, a nonempty netloc
free of delimiters, a path that is empty or absolute, and no `#` outside the
fragment. -/
structure UrlWF (u : UrlParts) : Prop where
  scheme_ne : u.scheme ≠ []
  scheme_alpha : isAsciiAlpha (u.scheme.headD ' ') = true
  scheme_chars : ∀ c ∈ u.scheme, isSchemeChar c = true
  scheme_lower : u.scheme.map Char.toLower = u.scheme
  netloc_ne : u.netloc ≠ []
  netloc_chars : ∀ c ∈ u.netloc, c ≠ '/' ∧ c ≠ '?' ∧ c ≠ '#'
  path_slash : u.path = [] ∨ u.path.take 1 = ['/']
  path_chars : ∀ c ∈ u.path, c ≠ '?' ∧ c ≠ '#'
  query_hash : '#' ∉ u.query
  fragment_hash : '#' ∉ u.fragment

/-! ## Lemmas about splitting -/

theorem splitFirst_not_mem {c : Char} : ∀ {l : List Char}, c ∉ l → splitFirst c l = none := by
  intro l h
  induction l with
  | nil => rfl
  | cons x xs ih =>
    have hx : ¬ x = c := fun e => h (by simp [e])
    have hxs : c ∉ xs := fun m => h (List.mem_cons_of_mem _ m)
    simp [splitFirst, hx, ih hxs]

theorem splitFirst_append_left {c : Char} {l₁ : List Char} (h : c ∉ l₁) (l₂ : List Char) :
    splitFirst c (l₁ ++ l₂) = (splitFirst c l₂).map (fun p => (l₁ ++ p.1, p.2)) := by
  induction l₁ with
  | nil =>
    simp only [List.nil_append]
    cases splitFirst c l₂ <;> rfl
  | cons x xs ih =>
    have hx : ¬ x = c := fun e => h (by simp [e])
    have hxs : c ∉ xs := fun m => h (List.mem_cons_of_mem _ m)
    simp only [List.cons_append, splitFirst, if_neg hx, List.append_eq, ih hxs]
    cases splitFirst c l₂ <;> rfl

theorem splitFirst_sep {c : Char} {l₁ : List Char} (h : c ∉ l₁) (l₂ : List Char) :
    splitFirst c (l₁ ++ c :: l₂) = some (l₁, l₂) := by
  rw [splitFirst_append_left h]
  simp [splitFirst]

theorem splitAll_not_mem {c : Char} : ∀ {l : List Char}, c ∉ l → splitAllChar c l = [l] := by
  intro l h
  induction l with
  | nil => rfl
  | cons x xs ih =>
    have hx : ¬ x = c := fun e => h (by simp [e])
    have hxs : c ∉ xs := fun m => h (List.mem_cons_of_mem _ m)
    simp [splitAllChar, hx, ih hxs]

theorem splitAll_sep {c : Char} {l₁ : List Char} (h : c ∉ l₁) (l₂ : List Char) :
    splitAllChar c (l₁ ++ c :: l₂) = l₁ :: splitAllChar c l₂ := by
  induction l₁ with
  | nil => simp [splitAllChar]
  | cons x xs ih =>
    have hx : ¬ x = c := fun e => h (by simp [e])
    have hxs : c ∉ xs := fun m => h (List.mem_cons_of_mem _ m)
    simp only [List.cons_append, splitAllChar, if_neg hx, List.append_eq, ih hxs]

theorem splitAll_joinSep {c : Char} :
    ∀ {pieces : List (List Char)}, pieces ≠ [] → (∀ p ∈ pieces, c ∉ p) →
      splitAllChar c (joinSep c pieces) = pieces := by
  intro pieces hne h
  induction pieces with
  | nil => exact absurd rfl hne
  | cons p rest ih =>
    cases rest with
    | nil =>
      simpa [joinSep] using splitAll_not_mem (h p (by simp))
    | cons q rest' =>
      have h1 : c ∉ p := h p (by simp)
      have h2 : ∀ r ∈ q :: rest', c ∉ r := fun r hr => h r (List.mem_cons_of_mem _ hr)
      simp only [joinSep, splitAll_sep h1, ih (by simp) h2]

theorem splitAll_chars {c : Char} :
    ∀ {l : List Char}, ∀ p ∈ splitAllChar c l, ∀ x ∈ p, x ∈ l := by
  intro l
  induction l with
  | nil => intro p hp x hx; simp [splitAllChar] at hp; simp [hp] at hx
  | cons y ys ih =>
    intro p hp x hx
    by_cases hy : y = c
    · simp only [splitAllChar, if_pos hy] at hp
      rcases List.mem_cons.mp hp with hp | hp
      · simp [hp] at hx
      · exact List.mem_cons_of_mem _ (ih p hp x hx)
    · cases he : splitAllChar c ys with
      | nil =>
        simp only [splitAllChar, if_neg hy, he] at hp
        simp at hp
        rw [hp] at hx
        simp at hx
        simp [hx]
      | cons hd tl =>
        simp only [splitAllChar, if_neg hy, he] at hp
        rcases List.mem_cons.mp hp with hp | hp
        · rw [hp] at hx
          rcases List.mem_cons.mp hx with hx0 | hx
          · simp [hx0]
          · exact List.mem_cons_of_mem _ (ih hd (by rw [he]; exact List.mem_cons_self _ _) x hx)
        · exact List.mem_cons_of_mem _ (ih p (by rw [he]; exact List.mem_cons_of_mem _ hp) x hx)

/-! ## Lemmas about decimal numerals -/

theorem digitChar_isDigit {d : Nat} (h : d < 10) : isAsciiDigit (digitChar d) = true := by
  interval_cases d <;> decide

theorem digitVal_digitChar {d : Nat} (h : d < 10) : digitVal (digitChar d) = d := by
  interval_cases d <;> decide

theorem natReprAux_stable : ∀ f₁ f₂ n : Nat, n ≤ f₁ → n ≤ f₂ →
    natReprAux f₁ n = natReprAux f₂ n := by
  intro f₁
  induction f₁ with
  | zero =>
    intro f₂ n h1 h2
    have hn : n = 0 := by omega
    subst hn
    cases f₂ with
    | zero => rfl
    | succ g => simp [natReprAux]
  | succ f ih =>
    intro f₂ n h1 h2
    by_cases hn : n < 10
    · cases f₂ with
      | zero =>
        have h0 : n = 0 := by omega
        subst h0
        simp [natReprAux]
      | succ g => simp [natReprAux, hn]
    · cases f₂ with
      | zero => omega
      | succ g =>
        have hd : n / 10 < n := Nat.div_lt_self (by omega) (by omega)
        simp only [natReprAux, if_neg hn]
        rw [ih g (n / 10) (by omega) (by omega)]

theorem natReprL_lt {n : Nat} (h : n < 10) : natReprL n = [digitChar n] := by
  cases n with
  | zero => rfl
  | succ m => simp [natReprL, natReprAux, h]

theorem natReprL_ge {n : Nat} (h : 10 ≤ n) :
    natReprL n = natReprL (n / 10) ++ [digitChar (n % 10)] := by
  obtain ⟨m, rfl⟩ : ∃ m, n = m + 1 := ⟨n - 1, by omega⟩
  have hd : (m + 1) / 10 < m + 1 := Nat.div_lt_self (by omega) (by omega)
  simp only [natReprL, natReprAux, if_neg (by omega : ¬ m + 1 < 10)]
  rw [natReprAux_stable m ((m + 1) / 10) ((m + 1) / 10) (by omega) (by omega)]

theorem natReprL_ne_nil {n : Nat} : natReprL n ≠ [] := by
  by_cases h : n < 10
  · rw [natReprL_lt h]; simp
  · rw [natReprL_ge (by omega)]; simp

theorem natReprL_digits : ∀ n : Nat, ∀ c ∈ natReprL n, isAsciiDigit c = true := by
  intro n
  induction n using Nat.strong_induction_on with
  | _ n ih =>
    intro c hc
    by_cases h : n < 10
    · rw [natReprL_lt h] at hc
      simp at hc
      rw [hc]; exact digitChar_isDigit h
    · rw [natReprL_ge (by omega)] at hc
      rcases List.mem_append.mp hc with hc | hc
      · exact ih (n / 10) (Nat.div_lt_self (by omega) (by omega)) c hc
      · simp at hc
        rw [hc]; exact digitChar_isDigit (Nat.mod_lt _ (by omega))

theorem digitsVal_append1 (l : List Char) (c : Char) :
    digitsVal (l ++ [c]) = 10 * digitsVal l + digitVal c := by
  simp [digitsVal, List.foldl_append]

theorem digitsVal_natReprL : ∀ n : Nat, digitsVal (natReprL n) = n := by
  intro n
  induction n using Nat.strong_induction_on with
  | _ n ih =>
    by_cases h : n < 10
    · rw [natReprL_lt h]
      simp [digitsVal]
      exact digitVal_digitChar h
    · rw [natReprL_ge (by omega), digitsVal_append1,
          ih (n / 10) (Nat.div_lt_self (by omega) (by omega)),
          digitVal_digitChar (Nat.mod_lt _ (by omega))]
      omega

theorem natReprL_inj {m n : Nat} (h : natReprL m = natReprL n) : m = n := by
  rw [← digitsVal_natReprL m, h, digitsVal_natReprL]

theorem intReprL_chars {i : Int} : ∀ c ∈ intReprL i, isAsciiDigit c = true ∨ c = '-' := by
  intro c hc
  cases i with
  | ofNat n => exact Or.inl (natReprL_digits n c hc)
  | negSucc n =>
    rcases List.mem_cons.mp hc with hc | hc
    · exact Or.inr hc
    · exact Or.inl (natReprL_digits (n + 1) c hc)

theorem intReprL_ne_nil {i : Int} : intReprL i ≠ [] := by
  cases i with
  | ofNat n => exact natReprL_ne_nil
  | negSucc n => simp [intReprL]

theorem intReprL_not_mem {i : Int} {d : Char}
    (hd : isAsciiDigit d = false) (hneg : d ≠ '-') : d ∉ intReprL i := by
  intro hm
  rcases intReprL_chars d hm with h | h
  · rw [h] at hd; cases hd
  · exact hneg h

theorem intReprL_inj {i j : Int} (h : intReprL i = intReprL j) : i = j := by
  cases i with
  | ofNat n =>
    cases j with
    | ofNat m => exact congrArg Int.ofNat (natReprL_inj h)
    | negSucc m =>
      exfalso
      obtain ⟨c, rest, hcr⟩ := List.exists_cons_of_ne_nil (natReprL_ne_nil (n := n))
      have hdig := natReprL_digits n c (by rw [hcr]; exact List.mem_cons_self _ _)
      simp only [intReprL] at h
      rw [hcr] at h
      have hc : c = '-' := (List.cons_eq_cons.mp h).1
      rw [hc] at hdig
      cases hdig
  | negSucc n =>
    cases j with
    | ofNat m =>
      exfalso
      obtain ⟨c, rest, hcr⟩ := List.exists_cons_of_ne_nil (natReprL_ne_nil (n := m))
      have hdig := natReprL_digits m c (by rw [hcr]; exact List.mem_cons_self _ _)
      simp only [intReprL] at h
      rw [hcr] at h
      have hc : '-' = c := (List.cons_eq_cons.mp h).1
      rw [← hc] at hdig
      cases hdig
    | negSucc m =>
      simp only [intReprL, List.cons_eq_cons] at h
      have h2 := natReprL_inj h.2
      have : n = m := by omega
      rw [this]

theorem parseDigits_natReprL (n : Nat) : parseDigits (natReprL n) = some n := by
  unfold parseDigits
  rw [if_pos, digitsVal_natReprL]
  refine ⟨natReprL_ne_nil, ?_⟩
  rw [List.all_eq_true]
  intro c hc
  simp [natReprL_digits n c hc]

theorem parseIntL_intReprL (i : Int) : parseIntL (intReprL i) = some i := by
  cases i with
  | ofNat n =>
    obtain ⟨c, rest, hcr⟩ := List.exists_cons_of_ne_nil (natReprL_ne_nil (n := n))
    have hdig := natReprL_digits n c (by rw [hcr]; exact List.mem_cons_self _ _)
    have hm : c ≠ '-' := by
      intro e; rw [e] at hdig; cases hdig
    have hp : c ≠ '+' := by
      intro e; rw [e] at hdig; cases hdig
    show parseIntL (natReprL n) = some (n : Int)
    rw [hcr]
    unfold parseIntL
    rw [if_neg (by simp [hm]), if_neg (by simp [hp])]
    have : parseDigits (c :: rest) = some n := by rw [← hcr]; exact parseDigits_natReprL n
    rw [this]
    rfl
  | negSucc n =>
    show parseIntL ('-' :: natReprL (n + 1)) = some (Int.negSucc n)
    unfold parseIntL
    rw [if_pos (by simp)]
    simp only [List.tail_cons, parseDigits_natReprL]
    simp [Int.negSucc_eq]

/-! ## Lemmas: the `parse_qs` / `urlencode` roundtrip -/

theorem splitFirst_left_not_mem {c : Char} :
    ∀ {l a b : List Char}, splitFirst c l = some (a, b) → c ∉ a := by
  intro l
  induction l with
  | nil => intro a b h; cases h
  | cons x xs ih =>
    intro a b h
    by_cases hx : x = c
    · simp only [splitFirst, if_pos hx, Option.some.injEq, Prod.mk.injEq] at h
      rw [← h.1]
      simp
    · simp only [splitFirst, if_neg hx] at h
      cases he : splitFirst c xs with
      | none => rw [he] at h; cases h
      | some q =>
        rw [he] at h
        simp only [Option.map, Option.some.injEq] at h
        obtain ⟨q1, q2⟩ := q
        cases h
        intro hm
        rcases List.mem_cons.mp hm with hm | hm
        · exact hx hm.symm
        · exact ih he hm

theorem splitFirst_chars {c : Char} :
    ∀ {l a b : List Char}, splitFirst c l = some (a, b) →
      (∀ x ∈ a, x ∈ l) ∧ (∀ x ∈ b, x ∈ l) := by
  intro l
  induction l with
  | nil => intro a b h; cases h
  | cons x xs ih =>
    intro a b h
    by_cases hx : x = c
    · simp only [splitFirst, if_pos hx, Option.some.injEq, Prod.mk.injEq] at h
      constructor
      · intro y hy; rw [← h.1] at hy; cases hy
      · intro y hy; rw [← h.2] at hy; exact List.mem_cons_of_mem _ hy
    · simp only [splitFirst, if_neg hx] at h
      cases he : splitFirst c xs with
      | none => rw [he] at h; cases h
      | some q =>
        rw [he] at h
        simp only [Option.map, Option.some.injEq] at h
        obtain ⟨q1, q2⟩ := q
        have h1 := (Prod.mk.injEq .. ▸ h).1
        have h2 := (Prod.mk.injEq .. ▸ h).2
        constructor
        · intro y hy
          rw [← h1] at hy
          rcases List.mem_cons.mp hy with hy | hy
          · simp [hy]
          · exact List.mem_cons_of_mem _ ((ih he).1 y hy)
        · intro y hy
          rw [← h2] at hy
          exact List.mem_cons_of_mem _ ((ih he).2 y hy)

theorem splitAll_no_sep {c : Char} :
    ∀ {l : List Char}, ∀ p ∈ splitAllChar c l, c ∉ p := by
  intro l
  induction l with
  | nil =>
    intro p hp
    simp [splitAllChar] at hp
    simp [hp]
  | cons y ys ih =>
    intro p hp
    by_cases hy : y = c
    · simp only [splitAllChar, if_pos hy] at hp
      rcases List.mem_cons.mp hp with hp | hp
      · simp [hp]
      · exact ih p hp
    · cases he : splitAllChar c ys with
      | nil =>
        simp only [splitAllChar, if_neg hy, he] at hp
        simp at hp
        rw [hp]
        intro hm
        rcases List.mem_cons.mp hm with hm | hm
        · exact hy hm.symm
        · cases hm
      | cons hd tl =>
        simp only [splitAllChar, if_neg hy, he] at hp
        rcases List.mem_cons.mp hp with hp | hp
        · rw [hp]
          intro hm
          rcases List.mem_cons.mp hm with hm | hm
          · exact hy hm.symm
          · exact ih hd (by rw [he]; exact List.mem_cons_self _ _) hm
        · exact ih p (by rw [he]; exact List.mem_cons_of_mem _ hp)

/-- Unpack what membership in `parse_qsl q` tells about one pair. -/
theorem parse_qsl_entry {q : List Char} :
    ∀ p ∈ parse_qsl q, p.2 ≠ [] ∧ '&' ∉ p.1 ∧ '=' ∉ p.1 ∧ '&' ∉ p.2 ∧
      (∀ x ∈ p.1, x ∈ q) ∧ (∀ x ∈ p.2, x ∈ q) := by
  intro p hp
  rw [parse_qsl, List.mem_filterMap] at hp
  obtain ⟨nv, hnv, hf⟩ := hp
  have hamp : '&' ∉ nv := splitAll_no_sep nv hnv
  have hchars : ∀ x ∈ nv, x ∈ q := splitAll_chars nv hnv
  unfold parsePiece at hf
  by_cases h0 : nv = []
  · rw [if_pos h0] at hf; cases hf
  rw [if_neg h0] at hf
  cases he : splitFirst '=' nv with
  | none => rw [he] at hf; cases hf
  | some pr =>
    rw [he] at hf
    dsimp only at hf
    by_cases h2 : pr.2 = []
    · rw [if_pos h2] at hf; cases hf
    rw [if_neg h2] at hf
    have hpr : pr = p := by
      have := hf
      simp at this
      exact this
    obtain ⟨a, b⟩ := pr
    cases hpr
    have hsc := splitFirst_chars he
    refine ⟨h2, ?_, splitFirst_left_not_mem he, ?_, ?_, ?_⟩
    · exact fun hm => hamp (hsc.1 '&' hm)
    · exact fun hm => hamp (hsc.2 '&' hm)
    · exact fun x hx => hchars x (hsc.1 x hx)
    · exact fun x hx => hchars x (hsc.2 x hx)

theorem dictAppend_fresh {k : List Char} {v : List Char} :
    ∀ {d : List (List Char × List (List Char))}, k ∉ d.map Prod.fst →
      dictAppend k v d = d ++ [(k, [v])] := by
  intro d
  induction d with
  | nil => intro _; rfl
  | cons e t ih =>
    intro h
    have h1 : ¬ e.1 = k := by
      intro e1; exact h (by simp [e1])
    have h2 : k ∉ t.map Prod.fst := by
      intro hm; exact h (by simp; right; simpa using hm)
    simp only [dictAppend, if_neg h1, ih h2, List.cons_append]

theorem dictAppend_last {k : List Char} {v : List Char} {vs : List (List Char)} :
    ∀ {d : List (List Char × List (List Char))}, k ∉ d.map Prod.fst →
      dictAppend k v (d ++ [(k, vs)]) = d ++ [(k, vs ++ [v])] := by
  intro d
  induction d with
  | nil => simp [dictAppend]
  | cons e t ih =>
    intro h
    have h1 : ¬ e.1 = k := by
      intro e1; exact h (by simp [e1])
    have h2 : k ∉ t.map Prod.fst := by
      intro hm; exact h (by simp; right; simpa using hm)
    simp only [List.cons_append, dictAppend, if_neg h1, List.append_eq, ih h2]

theorem foldl_dictAppend_vals {k : List Char} :
    ∀ (rest : List (List Char)) (d : List (List Char × List (List Char)))
      (acc : List (List Char)), k ∉ d.map Prod.fst →
      List.foldl (fun d p => dictAppend p.1 p.2 d) (d ++ [(k, acc)])
        (rest.map (fun v => (k, v))) = d ++ [(k, acc ++ rest)] := by
  intro rest
  induction rest with
  | nil => intro d acc _; simp
  | cons v vs ih =>
    intro d acc h
    simp only [List.map_cons, List.foldl_cons]
    rw [dictAppend_last h, ih d (acc ++ [v]) h, List.append_assoc]
    simp

theorem flatPairs_cons {k : List Char} {vs : List (List Char)}
    {t : List (List Char × List (List Char))} :
    flatPairs ((k, vs) :: t) = vs.map (fun v => (k, v)) ++ flatPairs t := by
  simp [flatPairs]

theorem foldl_dictAppend_flat :
    ∀ (d d₀ : List (List Char × List (List Char))),
      (∀ p ∈ d, p.2 ≠ []) → ((d₀ ++ d).map Prod.fst).Nodup →
      List.foldl (fun d p => dictAppend p.1 p.2 d) d₀ (flatPairs d) = d₀ ++ d := by
  intro d
  induction d with
  | nil => intro d₀ _ _; simp [flatPairs]
  | cons e t ih =>
    intro d₀ hne hnd
    obtain ⟨k, vs⟩ := e
    obtain ⟨v0, vt, rfl⟩ : ∃ v0 vt, vs = v0 :: vt := by
      cases hv : vs with
      | nil => exact absurd hv (hne (k, vs) (List.mem_cons_self _ _))
      | cons a b => exact ⟨a, b, rfl⟩
    have hk0 : k ∉ d₀.map Prod.fst := by
      intro hm
      have h2 : (d₀.map Prod.fst ++ (k :: t.map Prod.fst)).Nodup := by
        simpa using hnd
      rw [List.nodup_append] at h2
      exact h2.2.2 hm (List.mem_cons_self _ _)
    rw [flatPairs_cons, List.foldl_append]
    have step1 :
        List.foldl (fun d p => dictAppend p.1 p.2 d) d₀
          ((v0 :: vt).map (fun v => (k, v))) = d₀ ++ [(k, v0 :: vt)] := by
      simp only [List.map_cons, List.foldl_cons]
      rw [dictAppend_fresh hk0, foldl_dictAppend_vals vt d₀ [v0] hk0]
      simp
    rw [step1]
    have ht : List.foldl (fun d p => dictAppend p.1 p.2 d) (d₀ ++ [(k, v0 :: vt)])
        (flatPairs t) = (d₀ ++ [(k, v0 :: vt)]) ++ t := by
      apply ih
      · exact fun p hp => hne p (List.mem_cons_of_mem _ hp)
      · have h3 : ((d₀ ++ [(k, v0 :: vt)]) ++ t).map Prod.fst =
            (d₀ ++ (k, v0 :: vt) :: t).map Prod.fst := by simp
        rw [h3]
        exact hnd
    rw [ht, List.append_assoc]
    simp

theorem qsPieces_cons {k : List Char} {vs : List (List Char)}
    {t : List (List Char × List (List Char))} :
    qsPieces ((k, vs) :: t) = vs.map (fun v => k ++ '=' :: v) ++ qsPieces t := by
  simp [qsPieces]

theorem qsPieces_ne_nil {d : List (List Char × List (List Char))}
    (hd : d ≠ []) (hne : ∀ p ∈ d, p.2 ≠ []) : qsPieces d ≠ [] := by
  cases d with
  | nil => exact absurd rfl hd
  | cons e t =>
    obtain ⟨k, vs⟩ := e
    cases hv : vs with
    | nil => exact absurd hv (hne (k, vs) (List.mem_cons_self _ _))
    | cons v0 vt =>
      subst hv
      rw [qsPieces_cons]
      simp

theorem qsPieces_entry {d : List (List Char × List (List Char))} :
    ∀ piece ∈ qsPieces d, ∃ p ∈ d, ∃ v ∈ p.2, piece = p.1 ++ '=' :: v := by
  intro piece hp
  rw [qsPieces, List.mem_flatten] at hp
  obtain ⟨blk, hblk, hpb⟩ := hp
  rw [List.mem_map] at hblk
  obtain ⟨p, hpd, rfl⟩ := hblk
  rw [List.mem_map] at hpb
  obtain ⟨v, hv, rfl⟩ := hpb
  exact ⟨p, hpd, v, hv, rfl⟩

theorem parsePiece_encode {k v : List Char} (hk : '=' ∉ k) (hv : v ≠ []) :
    parsePiece (k ++ '=' :: v) = some (k, v) := by
  unfold parsePiece
  rw [if_neg (by simp), splitFirst_sep hk]
  dsimp only
  rw [if_neg hv]

theorem filterMap_block {k : List Char} (hk : '=' ∉ k) :
    ∀ {vs : List (List Char)}, (∀ v ∈ vs, v ≠ []) →
      (vs.map (fun v => k ++ '=' :: v)).filterMap parsePiece =
        vs.map (fun v => (k, v)) := by
  intro vs
  induction vs with
  | nil => intro _; rfl
  | cons v vt ih =>
    intro h
    simp only [List.map_cons, List.filterMap_cons,
      parsePiece_encode hk (h v (List.mem_cons_self _ _))]
    rw [ih (fun w hw => h w (List.mem_cons_of_mem _ hw))]

theorem parse_qsl_urlencode {d : List (List Char × List (List Char))}
    (h : QDictWF d) : parse_qsl (urlencodeL d) = flatPairs d := by
  by_cases hd : d = []
  · subst hd; rfl
  · have hpieces_ne : qsPieces d ≠ [] := qsPieces_ne_nil hd (fun p hp => (h.1 p hp).1)
    have hnoamp : ∀ piece ∈ qsPieces d, '&' ∉ piece := by
      intro piece hp
      obtain ⟨p, hpd, v, hv, rfl⟩ := qsPieces_entry piece hp
      obtain ⟨_, hk, _, hvs⟩ := h.1 p hpd
      intro hm
      rcases List.mem_append.mp hm with hm | hm
      · exact hk hm
      · rcases List.mem_cons.mp hm with hm | hm
        · exact absurd hm (by decide)
        · exact ((hvs v hv).2) hm
    have henc : urlencodeL d = joinSep '&' (qsPieces d) := rfl
    rw [parse_qsl, henc, splitAll_joinSep hpieces_ne hnoamp]
    -- every piece parses back to its pair
    clear henc hpieces_ne hnoamp hd
    induction d with
    | nil => rfl
    | cons e t ih =>
      obtain ⟨k, vs⟩ := e
      have he := h.1 (k, vs) (List.mem_cons_self _ _)
      rw [qsPieces_cons, flatPairs_cons, List.filterMap_append,
          filterMap_block he.2.2.1 (fun v hv => (he.2.2.2 v hv).1)]
      congr 1
      apply ih
      constructor
      · exact fun p hp => h.1 p (List.mem_cons_of_mem _ hp)
      · have := h.2
        simp only [List.map_cons] at this
        exact this.of_cons

theorem parse_qs_urlencode {d : List (List Char × List (List Char))}
    (h : QDictWF d) : parse_qs (urlencodeL d) = d := by
  rw [parse_qs, parse_qsl_urlencode h]
  have := foldl_dictAppend_flat d [] (fun p hp => (h.1 p hp).1) (by simpa using h.2)
  simpa using this

theorem dictAppend_pred {q k : List Char} {v : List Char} :
    ∀ {d}, (∀ e ∈ d, EntryPred q e) →
      ('&' ∉ k ∧ '=' ∉ k ∧ ∀ x ∈ k, x ∈ q) →
      (v ≠ [] ∧ '&' ∉ v ∧ ∀ x ∈ v, x ∈ q) →
      ∀ e ∈ dictAppend k v d, EntryPred q e := by
  intro d
  induction d with
  | nil =>
    intro _ hk hv e he
    simp [dictAppend] at he
    rw [he]
    refine ⟨by simp, hk.1, hk.2.1, hk.2.2, ?_⟩
    intro w hw
    simp at hw
    rw [hw]
    exact hv
  | cons f t ih =>
    intro hd hk hv e he
    by_cases hf : f.1 = k
    · simp only [dictAppend, if_pos hf] at he
      rcases List.mem_cons.mp he with he | he
      · obtain ⟨p1, p2, p3, p4, p5⟩ := hd f (List.mem_cons_self _ _)
        rw [he]
        refine ⟨by simp, p2, p3, p4, ?_⟩
        intro w hw
        rcases List.mem_append.mp hw with hw | hw
        · exact p5 w hw
        · simp at hw
          rw [hw]
          exact hv
      · exact hd e (List.mem_cons_of_mem _ he)
    · simp only [dictAppend, if_neg hf] at he
      rcases List.mem_cons.mp he with he | he
      · rw [he]; exact hd f (List.mem_cons_self _ _)
      · exact ih (fun e' he' => hd e' (List.mem_cons_of_mem _ he')) hk hv e he

theorem dictAppend_keys {k : List Char} {v : List Char} :
    ∀ {d : List (List Char × List (List Char))},
      (dictAppend k v d).map Prod.fst =
        if k ∈ d.map Prod.fst then d.map Prod.fst else d.map Prod.fst ++ [k] := by
  intro d
  induction d with
  | nil => simp [dictAppend]
  | cons e t ih =>
    by_cases he : e.1 = k
    · simp only [dictAppend, if_pos he, List.map_cons]
      rw [if_pos (by simp [he])]
    · simp only [dictAppend, if_neg he, List.map_cons, ih]
      by_cases hm : k ∈ t.map Prod.fst
      · rw [if_pos hm, if_pos (by simp [hm])]
      · rw [if_neg hm, if_neg (by simp [hm]; exact fun e1 => he e1.symm)]
        simp

theorem foldl_dictAppend_pred {q : List Char} :
    ∀ (pairs : List (List Char × List Char)) (acc),
      (∀ e ∈ acc, EntryPred q e) →
      (∀ p ∈ pairs, '&' ∉ p.1 ∧ '=' ∉ p.1 ∧ p.2 ≠ [] ∧ '&' ∉ p.2 ∧
        (∀ x ∈ p.1, x ∈ q) ∧ (∀ x ∈ p.2, x ∈ q)) →
      ∀ e ∈ List.foldl (fun d p => dictAppend p.1 p.2 d) acc pairs, EntryPred q e := by
  intro pairs
  induction pairs with
  | nil => intro acc hacc _ e he; exact hacc e he
  | cons p t ih =>
    intro acc hacc hp e he
    simp only [List.foldl_cons] at he
    obtain ⟨k1, k2, k3, k4, k5, k6⟩ := hp p (List.mem_cons_self _ _)
    exact ih _ (dictAppend_pred hacc ⟨k1, k2, k5⟩ ⟨k3, k4, k6⟩)
      (fun r hr => hp r (List.mem_cons_of_mem _ hr)) e he

theorem foldl_dictAppend_nodup :
    ∀ (pairs : List (List Char × List Char)) (acc : List (List Char × List (List Char))),
      (acc.map Prod.fst).Nodup →
      ((List.foldl (fun d p => dictAppend p.1 p.2 d) acc pairs).map Prod.fst).Nodup := by
  intro pairs
  induction pairs with
  | nil => intro acc h; exact h
  | cons p t ih =>
    intro acc h
    simp only [List.foldl_cons]
    apply ih
    rw [dictAppend_keys]
    by_cases hm : p.1 ∈ acc.map Prod.fst
    · rw [if_pos hm]; exact h
    · rw [if_neg hm]
      rw [List.nodup_append]
      exact ⟨h, List.nodup_singleton _, by
        intro a ha hb
        simp at hb
        rw [hb] at ha
        exact hm ha⟩

theorem parse_qs_pred {q : List Char} : ∀ e ∈ parse_qs q, EntryPred q e := by
  intro e he
  rw [parse_qs] at he
  refine foldl_dictAppend_pred (parse_qsl q) [] (by simp) ?_ e he
  intro p hp
  obtain ⟨h1, h2, h3, h4, h5, h6⟩ := parse_qsl_entry p hp
  exact ⟨h2, h3, h1, h4, h5, h6⟩

theorem parse_qs_keys_nodup (q : List Char) : ((parse_qs q).map Prod.fst).Nodup := by
  rw [parse_qs]
  exact foldl_dictAppend_nodup _ [] (by simp)

theorem parse_qs_QDictWF (q : List Char) : QDictWF (parse_qs q) := by
  constructor
  · intro p hp
    obtain ⟨h1, h2, h3, _, h5⟩ := parse_qs_pred p hp
    exact ⟨h1, h2, h3, fun v hv => ⟨(h5 v hv).1, (h5 v hv).2.1⟩⟩
  · exact parse_qs_keys_nodup q

theorem dictSet_keys {k : List Char} {v : List (List Char)} :
    ∀ {d : List (List Char × List (List Char))},
      (dictSet k v d).map Prod.fst =
        if k ∈ d.map Prod.fst then d.map Prod.fst else d.map Prod.fst ++ [k] := by
  intro d
  induction d with
  | nil => simp [dictSet]
  | cons e t ih =>
    by_cases he : e.1 = k
    · simp only [dictSet, if_pos he, List.map_cons]
      rw [if_pos (by simp [he])]
      simp [he]
    · simp only [dictSet, if_neg he, List.map_cons, ih]
      by_cases hm : k ∈ t.map Prod.fst
      · rw [if_pos hm, if_pos (by simp [hm])]
      · rw [if_neg hm, if_neg (by simp [hm]; exact fun e1 => he e1.symm)]
        simp

theorem dictSet_entries {k : List Char} {v : List (List Char)} :
    ∀ {d}, ∀ e ∈ dictSet k v d, (e.1 = k ∧ e.2 = v) ∨ e ∈ d := by
  intro d
  induction d with
  | nil =>
    intro e he
    simp [dictSet] at he
    rw [he]
    exact Or.inl ⟨rfl, rfl⟩
  | cons f t ih =>
    intro e he
    by_cases hf : f.1 = k
    · simp only [dictSet, if_pos hf] at he
      rcases List.mem_cons.mp he with he | he
      · rw [he]; exact Or.inl ⟨rfl, rfl⟩
      · exact Or.inr (List.mem_cons_of_mem _ he)
    · simp only [dictSet, if_neg hf] at he
      rcases List.mem_cons.mp he with he | he
      · rw [he]; exact Or.inr (List.mem_cons_self _ _)
      · rcases ih e he with h | h
        · exact Or.inl h
        · exact Or.inr (List.mem_cons_of_mem _ h)

theorem dictSet_QDictWF {d : List (List Char × List (List Char))}
    {k : List Char} {v : List (List Char)} (h : QDictWF d)
    (hk : '&' ∉ k ∧ '=' ∉ k) (hv : v ≠ [] ∧ ∀ w ∈ v, w ≠ [] ∧ '&' ∉ w) :
    QDictWF (dictSet k v d) := by
  constructor
  · intro e he
    rcases dictSet_entries e he with ⟨h1, h2⟩ | hd
    · rw [h1, h2]
      exact ⟨hv.1, hk.1, hk.2, hv.2⟩
    · exact h.1 e hd
  · rw [dictSet_keys]
    by_cases hm : k ∈ d.map Prod.fst
    · rw [if_pos hm]; exact h.2
    · rw [if_neg hm]
      rw [List.nodup_append]
      exact ⟨h.2, List.nodup_singleton _, by
        intro a ha hb
        simp at hb
        rw [hb] at ha
        exact hm ha⟩

theorem dictFind_dictSet_self {k : List Char} {v : List (List Char)} :
    ∀ {d}, dictFind k (dictSet k v d) = some v := by
  intro d
  induction d with
  | nil => simp [dictSet, dictFind]
  | cons e t ih =>
    by_cases he : e.1 = k
    · simp [dictSet, if_pos he, dictFind]
    · simp only [dictSet, if_neg he, dictFind, ih, if_neg he]

theorem dictFind_dictSet_other {k k' : List Char} {v : List (List Char)}
    (h : k' ≠ k) : ∀ {d}, dictFind k' (dictSet k v d) = dictFind k' d := by
  have hkk : ¬ k = k' := fun e => h e.symm
  intro d
  induction d with
  | nil =>
    simp only [dictSet, dictFind]
    rw [if_neg hkk]
  | cons e t ih =>
    by_cases he : e.1 = k
    · simp only [dictSet, if_pos he, dictFind]
      rw [if_neg hkk, if_neg (by rw [he]; exact hkk)]
    · simp only [dictSet, if_neg he, dictFind, ih]

theorem joinSep_chars {c : Char} :
    ∀ {pieces : List (List Char)}, ∀ x ∈ joinSep c pieces, x = c ∨ ∃ p ∈ pieces, x ∈ p := by
  intro pieces
  induction pieces with
  | nil => intro x hx; cases hx
  | cons p rest ih =>
    cases rest with
    | nil =>
      intro x hx
      simp only [joinSep] at hx
      exact Or.inr ⟨p, List.mem_cons_self _ _, hx⟩
    | cons q rest' =>
      intro x hx
      simp only [joinSep] at hx
      rcases List.mem_append.mp hx with hx | hx
      · exact Or.inr ⟨p, List.mem_cons_self _ _, hx⟩
      · rcases List.mem_cons.mp hx with hx | hx
        · exact Or.inl hx
        · rcases ih x hx with h | ⟨r, hr, hxr⟩
          · exact Or.inl h
          · exact Or.inr ⟨r, List.mem_cons_of_mem _ hr, hxr⟩

theorem urlencode_chars {d : List (List Char × List (List Char))} :
    ∀ x ∈ urlencodeL d, x = '&' ∨ x = '=' ∨ ∃ e ∈ d, x ∈ e.1 ∨ ∃ v ∈ e.2, x ∈ v := by
  intro x hx
  rcases joinSep_chars x hx with h | ⟨piece, hp, hxp⟩
  · exact Or.inl h
  · obtain ⟨e, he, v, hv, rfl⟩ := qsPieces_entry piece hp
    rcases List.mem_append.mp hxp with h | h
    · exact Or.inr (Or.inr ⟨e, he, Or.inl h⟩)
    · rcases List.mem_cons.mp h with h | h
      · exact Or.inr (Or.inl h)
      · exact Or.inr (Or.inr ⟨e, he, Or.inr ⟨v, hv, h⟩⟩)

/-! ## Lemmas: the `urlparse` / `urlunparse` roundtrip -/

theorem isNetlocEnd_false {c : Char} (h1 : c ≠ '/') (h2 : c ≠ '?') (h3 : c ≠ '#') :
    isNetlocEnd c = false := by
  simp [isNetlocEnd, h1, h2, h3]

theorem takeNetloc_split :
    ∀ {n r : List Char}, (∀ c ∈ n, isNetlocEnd c = false) →
      (r = [] ∨ ∃ d r', r = d :: r' ∧ isNetlocEnd d = true) →
      takeNetloc (n ++ r) = (n, r) := by
  intro n
  induction n with
  | nil =>
    intro r _ hr
    rcases hr with rfl | ⟨d, r', rfl, hd⟩
    · rfl
    · simp [takeNetloc, hd]
  | cons x xs ih =>
    intro r hn hr
    have hx := hn x (List.mem_cons_self _ _)
    simp only [List.cons_append, takeNetloc, hx, Bool.false_eq_true, if_false,
      List.append_eq]
    rw [ih (fun c hc => hn c (List.mem_cons_of_mem _ hc)) hr]

theorem splitScheme_of {us : List Char} (hs1 : us ≠ [])
    (hs2 : isAsciiAlpha (us.headD ' ') = true)
    (hs3 : ∀ c ∈ us, isSchemeChar c = true)
    (hs4 : us.map Char.toLower = us) (R : List Char) :
    splitScheme (us ++ ':' :: R) = (us, R) := by
  have hcolon : ':' ∉ us := fun hm => absurd (hs3 ':' hm) (by decide)
  unfold splitScheme
  rw [splitFirst_sep hcolon]
  dsimp only
  rw [if_pos ⟨hs1, hs2, List.all_eq_true.mpr hs3⟩, hs4]

theorem urlsplit_roundtrip {u : UrlParts} (h : UrlWF u) :
    urlsplitL (urlunsplitL u) = u := by
  obtain ⟨us, un, up, uq, uf⟩ := u
  obtain ⟨hs1, hs2, hs3, hs4, hn1, hn2, hp1, hp2, hq1, hf1⟩ := h
  simp only at hs1 hs2 hs3 hs4 hn1 hn2 hp1 hp2 hq1 hf1
  have hshape : urlunsplitL ⟨us, un, up, uq, uf⟩ =
      us ++ ':' :: '/' :: '/' :: (un ++ (up ++
        ((if uq = [] then [] else '?' :: uq) ++
          (if uf = [] then [] else '#' :: uf)))) := by
    simp only [urlunsplitL]
    rw [if_pos (Or.inl hn1)]
    have hpc : ¬ (up ≠ [] ∧ up.take 1 ≠ ['/']) := by
      rcases hp1 with h1 | h1
      · exact fun hc => hc.1 h1
      · exact fun hc => hc.2 h1
    rw [if_neg hpc, if_pos hs1]
    by_cases hq : uq = [] <;> by_cases hf : uf = [] <;>
      simp [hq, hf, List.append_assoc]
  rw [hshape]
  have hrest : (up ++ ((if uq = [] then [] else '?' :: uq) ++
        (if uf = [] then [] else '#' :: uf))) = [] ∨
      ∃ d r', (up ++ ((if uq = [] then [] else '?' :: uq) ++
        (if uf = [] then [] else '#' :: uf))) = d :: r' ∧ isNetlocEnd d = true := by
    rcases hp1 with h1 | h1
    · rw [h1, List.nil_append]
      by_cases hq : uq = []
      · rw [if_pos hq, List.nil_append]
        by_cases hf : uf = []
        · rw [if_pos hf]; exact Or.inl rfl
        · rw [if_neg hf]; exact Or.inr ⟨'#', uf, rfl, by decide⟩
      · rw [if_neg hq, List.cons_append]
        exact Or.inr ⟨'?', _, rfl, by decide⟩
    · cases up with
      | nil => cases h1
      | cons c cs =>
        have hc : c = '/' := by
          simp at h1
          exact h1
        rw [List.cons_append]
        exact Or.inr ⟨c, _, rfl, by rw [hc]; decide⟩
  have hnb : ∀ c ∈ un, isNetlocEnd c = false := fun c hc =>
    isNetlocEnd_false (hn2 c hc).1 (hn2 c hc).2.1 (hn2 c hc).2.2
  simp only [urlsplitL]
  rw [splitScheme_of hs1 hs2 hs3 hs4]
  dsimp only
  rw [if_pos (by simp)]
  dsimp only [List.drop_succ_cons, List.drop_zero]
  rw [takeNetloc_split hnb hrest]
  dsimp only
  -- fragment split
  have hQhash : '#' ∉ (if uq = [] then ([] : List Char) else '?' :: uq) := by
    by_cases hq : uq = []
    · rw [if_pos hq]; simp
    · rw [if_neg hq]
      intro hm
      rcases List.mem_cons.mp hm with hm | hm
      · cases hm
      · exact hq1 hm
  have hfragstep : (match splitFirst '#' (up ++ ((if uq = [] then [] else '?' :: uq) ++
        (if uf = [] then [] else '#' :: uf))) with
      | some p => (p.1, p.2)
      | none => (up ++ ((if uq = [] then [] else '?' :: uq) ++
          (if uf = [] then [] else '#' :: uf)), [])) =
      (up ++ (if uq = [] then [] else '?' :: uq), uf) := by
    by_cases hf : uf = []
    · rw [if_pos hf]
      rw [splitFirst_not_mem (by
        intro hm
        rcases List.mem_append.mp hm with hm | hm
        · exact (hp2 '#' hm).2 rfl
        · rcases List.mem_append.mp hm with hm | hm
          · exact hQhash hm
          · simp at hm)]
      simp [hf]
    · rw [if_neg hf]
      have : up ++ ((if uq = [] then [] else '?' :: uq) ++ '#' :: uf) =
          (up ++ (if uq = [] then [] else '?' :: uq)) ++ '#' :: uf := by
        simp [List.append_assoc]
      rw [this, splitFirst_sep (by
        intro hm
        rcases List.mem_append.mp hm with hm | hm
        · exact (hp2 '#' hm).2 rfl
        · exact hQhash hm)]
  rw [hfragstep]
  dsimp only
  -- query split
  have hquerystep : (match splitFirst '?' (up ++ (if uq = [] then [] else '?' :: uq)) with
      | some p => (p.1, p.2)
      | none => (up ++ (if uq = [] then [] else '?' :: uq), [])) = (up, uq) := by
    by_cases hq : uq = []
    · rw [if_pos hq]
      rw [splitFirst_not_mem (by
        intro hm
        rcases List.mem_append.mp hm with hm | hm
        · exact (hp2 '?' hm).1 rfl
        · simp at hm)]
      simp [hq]
    · rw [if_neg hq, splitFirst_sep (fun hm => (hp2 '?' hm).1 rfl)]
  rw [hquerystep]

/-! ## Lemmas: `get_next_page_url` on the page URLs -/

theorem pageParts_wf (i : Int) : UrlWF (pageParts i) := by
  have hq : '#' ∉ (pageParts i).query := by
    intro hm
    simp only [pageParts] at hm
    rcases List.mem_append.mp hm with hm | hm
    · exact absurd hm (by decide)
    · rcases List.mem_cons.mp hm with hm | hm
      · exact absurd hm (by decide)
      · exact intReprL_not_mem (by decide) (by decide) hm
  exact ⟨(by decide : ("https".data : List Char) ≠ []),
    (by decide : isAsciiAlpha (("https".data : List Char).headD ' ') = true),
    (by decide : ∀ c ∈ ("https".data : List Char), isSchemeChar c = true),
    (by decide : ("https".data : List Char).map Char.toLower = "https".data),
    (by decide : ("example.com".data : List Char) ≠ []),
    (by decide : ∀ c ∈ ("example.com".data : List Char), c ≠ '/' ∧ c ≠ '?' ∧ c ≠ '#'),
    Or.inl rfl,
    (by decide : ∀ c ∈ ([] : List Char), c ≠ '?' ∧ c ≠ '#'),
    hq,
    (by decide : '#' ∉ ([] : List Char))⟩

theorem pageQuery_QDictWF (i : Int) : QDictWF [(pageKey, [intReprL i])] := by
  constructor
  · intro p hp
    simp only [List.mem_singleton] at hp
    rw [hp]
    refine ⟨by simp, (by decide : '&' ∉ pageKey), (by decide : '=' ∉ pageKey), ?_⟩
    intro v hv
    simp only [List.mem_singleton] at hv
    rw [hv]
    exact ⟨intReprL_ne_nil, intReprL_not_mem (by decide) (by decide)⟩
  · simp

theorem parse_qs_pageQuery (i : Int) :
    parse_qs (pageKey ++ '=' :: intReprL i) = [(pageKey, [intReprL i])] := by
  have he : pageKey ++ '=' :: intReprL i = urlencodeL [(pageKey, [intReprL i])] := by
    simp [urlencodeL, joinSep]
  rw [he, parse_qs_urlencode (pageQuery_QDictWF i)]

theorem rebuild_pageParts (k p : Int) :
    rebuildWithPage (pageParts k) p = urlunsplitL (pageParts p) := by
  simp only [rebuildWithPage]
  have hq : (pageParts k).query = pageKey ++ '=' :: intReprL k := rfl
  rw [hq, parse_qs_pageQuery]
  have hset : dictSet pageKey [intReprL p] [(pageKey, [intReprL k])] =
      [(pageKey, [intReprL p])] := by
    simp [dictSet]
  rw [hset]
  have henc : urlencodeL [(pageKey, [intReprL p])] = pageKey ++ '=' :: intReprL p := by
    simp [urlencodeL, joinSep]
  rw [henc]
  rfl

theorem urlsplit_pageUrl (i : Int) : urlsplitL (pageUrl i).data = pageParts i := by
  have : (pageUrl i).data = urlunsplitL (pageParts i) := rfl
  rw [this, urlsplit_roundtrip (pageParts_wf i)]

/-- The stepping lemma: inside the loop, `get_next_page_url` maps the page-`k`
URL and counter `p` to `(p + 1, pageUrl (p + 1))`. -/
theorem get_next_aux_pageUrl (k p : Int) :
    get_next_page_url_aux (pageUrl k) p = (p + 1, pageUrl (p + 1)) := by
  unfold get_next_page_url_aux
  rw [urlsplit_pageUrl, rebuild_pageParts]
  rfl

theorem urlsplit_exBase : urlsplitL exBase.data =
    { scheme := "https".data, netloc := "example.com".data, path := [],
      query := [], fragment := [] } := by
  decide

/-- The seed step: `get_next_page_url` on the bare base URL and checkpoint
page `p` yields `(p + 1, pageUrl (p + 1))`. -/
theorem get_next_aux_exBase (p : Int) :
    get_next_page_url_aux exBase p = (p + 1, pageUrl (p + 1)) := by
  unfold get_next_page_url_aux
  rw [urlsplit_exBase]
  simp only [rebuildWithPage]
  have h0 : parse_qs ([] : List Char) = [] := rfl
  rw [h0]
  have hset : dictSet pageKey [intReprL (p + 1)] [] = [(pageKey, [intReprL (p + 1)])] := rfl
  rw [hset]
  have henc : urlencodeL [(pageKey, [intReprL (p + 1)])] =
      pageKey ++ '=' :: intReprL (p + 1) := by
    simp [urlencodeL, joinSep]
  rw [henc]
  rfl

theorem urlunsplit_pageParts (i : Int) :
    urlunsplitL (pageParts i) = "https://example.com?page=".data ++ intReprL i := by
  simp only [urlunsplitL, pageParts]
  rw [if_pos (Or.inl (by decide : ("example.com".data : List Char) ≠ [])),
    if_neg (show ¬(([] : List Char) ≠ [] ∧ ([] : List Char).take 1 ≠ ['/']) from
      fun hc => hc.1 rfl),
    if_pos (by decide : ("https".data : List Char) ≠ []),
    if_pos (by simp : pageKey ++ '=' :: intReprL i ≠ []),
    if_neg (show ¬(([] : List Char) ≠ []) from fun hc => hc rfl)]
  rfl

theorem pageUrl_data (i : Int) :
    (pageUrl i).data = "https://example.com?page=".data ++ intReprL i := by
  show (urlunsplitL (pageParts i)) = _
  exact urlunsplit_pageParts i

theorem pageUrl_ne_empty (i : Int) : pageUrl i ≠ "" := by
  intro h
  have : (pageUrl i).data = [] := by rw [h]
  rw [pageUrl_data] at this
  simp [intReprL_ne_nil] at this

theorem pageUrl_inj {i j : Int} (h : pageUrl i = pageUrl j) : i = j := by
  have hd : (pageUrl i).data = (pageUrl j).data := by rw [h]
  rw [pageUrl_data, pageUrl_data] at hd
  exact intReprL_inj (List.append_cancel_left hd)

theorem dropPre?_append : ∀ (p l : List Char), dropPre? p (p ++ l) = some l := by
  intro p
  induction p with
  | nil => intro l; rfl
  | cons x xs ih => intro l; simp [dropPre?, ih]

theorem fetchOfA_pageUrl (ap : Int → List Anchor) (i : Int) :
    fetchOfA ap (pageUrl i) = ap i := by
  unfold fetchOfA
  rw [pageUrl_data, dropPre?_append]
  dsimp only
  rw [parseIntL_intReprL]

/-! ## Lemmas: the page-processing body -/

theorem processPage_rows :
    ∀ (l : List Link) (plinks : List String) (acc : List Link),
      (processPage plinks acc l).2.1 = acc ++ appendedOf plinks l := by
  intro l
  induction l with
  | nil => intro plinks acc; simp [processPage, appendedOf]
  | cons p rest ih =>
    intro plinks acc
    show (processPage plinks acc (p :: rest)).2.1 =
      acc ++ (processPage plinks [] (p :: rest)).2.1
    by_cases hm : p.url ∈ plinks
    · simp only [processPage, if_pos hm]
      exact ih plinks acc
    · simp only [processPage, if_neg hm]
      rw [ih (p.url :: plinks) (acc ++ [p]), ih (p.url :: plinks) ([] ++ [p])]
      simp

theorem processPage_found :
    ∀ (l : List Link) (plinks : List String) (acc : List Link),
      ((processPage plinks acc l).2.2 = true ↔ ∃ x ∈ l, x.url ∉ plinks) := by
  intro l
  induction l with
  | nil => intro plinks acc; simp [processPage]
  | cons p rest ih =>
    intro plinks acc
    by_cases hm : p.url ∈ plinks
    · simp only [processPage, if_pos hm]
      rw [ih]
      constructor
      · rintro ⟨x, hx, hxu⟩
        exact ⟨x, List.mem_cons_of_mem _ hx, hxu⟩
      · rintro ⟨x, hx, hxu⟩
        rcases List.mem_cons.mp hx with hx | hx
        · exact absurd hm (hx ▸ hxu)
        · exact ⟨x, hx, hxu⟩
    · constructor
      · intro _; exact ⟨p, List.mem_cons_self _ _, hm⟩
      · intro _; simp [processPage, if_neg hm]

theorem processPage_plinks :
    ∀ (l : List Link) (plinks : List String) (acc : List Link) (u : String),
      (u ∈ (processPage plinks acc l).1 ↔ u ∈ plinks ∨ u ∈ urlsOf l) := by
  intro l
  induction l with
  | nil => intro plinks acc u; simp [processPage, urlsOf]
  | cons p rest ih =>
    intro plinks acc u
    by_cases hm : p.url ∈ plinks
    · simp only [processPage, if_pos hm]
      rw [ih]
      simp only [urlsOf, List.map_cons, List.mem_cons]
      constructor
      · rintro (h | h)
        · exact Or.inl h
        · exact Or.inr (Or.inr h)
      · rintro (h | h | h)
        · exact Or.inl h
        · exact Or.inl (h ▸ hm)
        · exact Or.inr h
    · simp only [processPage, if_neg hm]
      rw [ih]
      simp only [urlsOf, List.map_cons, List.mem_cons]
      tauto

/-- `processPage` only consults membership of the page's own URLs in the
seen-set. -/
theorem processPage_congr :
    ∀ (l : List Link) (S1 S2 : List String) (acc : List Link),
      (∀ x ∈ l, (x.url ∈ S1 ↔ x.url ∈ S2)) →
      (processPage S1 acc l).2.1 = (processPage S2 acc l).2.1 ∧
        (processPage S1 acc l).2.2 = (processPage S2 acc l).2.2 := by
  intro l
  induction l with
  | nil => intro S1 S2 acc _; exact ⟨rfl, rfl⟩
  | cons p rest ih =>
    intro S1 S2 acc h
    have hp := h p (List.mem_cons_self _ _)
    by_cases hm : p.url ∈ S1
    · have hm2 : p.url ∈ S2 := hp.mp hm
      simp only [processPage, if_pos hm, if_pos hm2]
      exact ih S1 S2 acc (fun x hx => h x (List.mem_cons_of_mem _ hx))
    · have hm2 : p.url ∉ S2 := fun hc => hm (hp.mpr hc)
      simp only [processPage, if_neg hm, if_neg hm2]
      have := ih (p.url :: S1) (p.url :: S2) (acc ++ [p]) (fun x hx => by
        simp only [List.mem_cons]
        rw [h x (List.mem_cons_of_mem _ hx)])
      exact ⟨this.1, by trivial⟩

/-- When the seen-set is disjoint from the page, the appended rows are the
page's first-occurrence dedup. -/
theorem appendedOf_disjoint {l : List Link} {plinks : List String}
    (h : ∀ x ∈ l, x.url ∉ plinks) : appendedOf plinks l = dedupWithin l := by
  unfold appendedOf dedupWithin appendedOf
  exact (processPage_congr l plinks [] [] (fun x hx => by simp [h x hx])).1

theorem appendedOf_nodup :
    ∀ (l : List Link) (plinks : List String),
      (urlsOf (appendedOf plinks l)).Nodup ∧
        ∀ u ∈ urlsOf (appendedOf plinks l), u ∉ plinks := by
  intro l
  induction l with
  | nil => intro plinks; simp [appendedOf, processPage, urlsOf]
  | cons p rest ih =>
    intro plinks
    by_cases hm : p.url ∈ plinks
    · have : appendedOf plinks (p :: rest) = appendedOf plinks rest := by
        simp only [appendedOf, processPage, if_pos hm]
      rw [this]
      exact ih plinks
    · have : appendedOf plinks (p :: rest) = p :: appendedOf (p.url :: plinks) rest := by
        show (processPage plinks [] (p :: rest)).2.1 = _
        simp only [processPage, if_neg hm]
        rw [processPage_rows]
        simp
      rw [this]
      obtain ⟨ih1, ih2⟩ := ih (p.url :: plinks)
      constructor
      · simp only [urlsOf, List.map_cons, List.nodup_cons]
        exact ⟨fun hc => ih2 _ hc (List.mem_cons_self _ _), ih1⟩
      · intro u hu
        simp only [urlsOf, List.map_cons, List.mem_cons] at hu
        rcases hu with hu | hu
        · exact hu ▸ hm
        · exact fun hc => ih2 u hu (List.mem_cons_of_mem _ hc)

theorem appendedOf_empty_of_sub {l : List Link} {plinks : List String}
    (h : ∀ x ∈ l, x.url ∈ plinks) : appendedOf plinks l = [] := by
  induction l with
  | nil => rfl
  | cons p rest ih =>
    simp only [appendedOf, processPage, if_pos (h p (List.mem_cons_self _ _))]
    exact ih (fun x hx => h x (List.mem_cons_of_mem _ hx))

/-! ## The bridge: `extractLoop` over `exBase` equals `runSpec` -/

theorem extractLoop_body (root : String) (fp : String → List Anchor) (fuel : Nat)
    (st : LoopState) (tr : List String)
    (hcond : ¬ (st.next_url = "" ∨ st.next_url ∈ st.seen_urls)) :
    extractLoop root fp fuel st tr =
      (let r := processPage st.product_links st.products
        (extract_links root "products" (fp st.next_url))
       let tr' := tr ++ [st.next_url]
       if r.2.2 = false then
         ({ state := { page := st.current_page - 1 }, rows := r.2.1 }, tr')
       else
         let nxt := get_next_page_url_aux st.next_url st.current_page
         match fuel with
         | 0 => ({ state := { page := nxt.1 - 1 }, rows := r.2.1 }, tr')
         | fuel' + 1 =>
           extractLoop root fp fuel'
             { current_page := nxt.1, next_url := nxt.2,
               seen_urls := st.next_url :: st.seen_urls,
               product_links := r.1, products := r.2.1 } tr') := by
  cases fuel <;>
    · rw [extractLoop.eq_def]
      dsimp only
      rw [if_neg hcond]
      try rfl

theorem runSpec_body (pages : Int → List Link) (fuel : Nat) (k : Int)
    (plinks : List String) (acc : List Link) (tr : List Int) :
    runSpec pages fuel k plinks acc tr =
      (let r := processPage plinks acc (pages k)
       let tr' := tr ++ [k]
       if r.2.2 = false then ({ state := { page := k - 1 }, rows := r.2.1 }, tr')
       else
         match fuel with
         | 0 => ({ state := { page := k + 1 - 1 }, rows := r.2.1 }, tr')
         | fuel' + 1 => runSpec pages fuel' (k + 1) r.1 r.2.1 tr') := by
  cases fuel <;> rw [runSpec.eq_def]

theorem extractLoop_runSpec {root : String} {fetchPage : String → List Anchor}
    {pages : Int → List Link}
    (hf : ∀ i : Int, extract_links root "products" (fetchPage (pageUrl i)) = pages i) :
    ∀ (fuel : Nat) (k : Int) (seen plinks : List String) (acc : List Link)
      (trN : List Int), (∀ j : Int, k ≤ j → pageUrl j ∉ seen) →
      extractLoop root fetchPage fuel
        { current_page := k, next_url := pageUrl k, seen_urls := seen,
          product_links := plinks, products := acc } (trN.map pageUrl) =
        ((runSpec pages fuel k plinks acc trN).1,
          (runSpec pages fuel k plinks acc trN).2.map pageUrl) := by
  intro fuel
  induction fuel with
  | zero =>
    intro k seen plinks acc trN hseen
    have hcond : ¬ (pageUrl k = "" ∨ pageUrl k ∈ seen) := by
      rintro (h | h)
      · exact pageUrl_ne_empty k h
      · exact hseen k le_rfl h
    rw [extractLoop_body root fetchPage 0 _ _ hcond, runSpec_body]
    dsimp only
    rw [hf k]
    by_cases hfound : (processPage plinks acc (pages k)).2.2 = false
    · rw [if_pos hfound, if_pos hfound]
      rw [List.map_append]
      rfl
    · rw [if_neg hfound, if_neg hfound, get_next_aux_pageUrl]
      rw [List.map_append]
      rfl
  | succ fuel ih =>
    intro k seen plinks acc trN hseen
    have hcond : ¬ (pageUrl k = "" ∨ pageUrl k ∈ seen) := by
      rintro (h | h)
      · exact pageUrl_ne_empty k h
      · exact hseen k le_rfl h
    rw [extractLoop_body root fetchPage (fuel + 1) _ _ hcond, runSpec_body]
    dsimp only
    rw [hf k]
    by_cases hfound : (processPage plinks acc (pages k)).2.2 = false
    · rw [if_pos hfound, if_pos hfound]
      rw [List.map_append]
      rfl
    · rw [if_neg hfound, if_neg hfound, get_next_aux_pageUrl]
      have hseen' : ∀ j : Int, k + 1 ≤ j → pageUrl j ∉ pageUrl k :: seen := by
        intro j hj hm
        rcases List.mem_cons.mp hm with hm | hm
        · have := pageUrl_inj hm
          omega
        · exact hseen j (by omega) hm
      have hmap : (trN.map pageUrl) ++ [pageUrl k] = (trN ++ [k]).map pageUrl := by
        simp only [List.map_append, List.map_cons, List.map_nil]
      rw [hmap, ih (k + 1) (pageUrl k :: seen) _ _ (trN ++ [k]) hseen']

/-- `extract_products` on the base URL, re-indexed by page numbers. -/
theorem extract_productsT_runSpec {root : String} {fetchPage : String → List Anchor}
    {pages : Int → List Link}
    (hf : ∀ i : Int, extract_links root "products" (fetchPage (pageUrl i)) = pages i)
    (limit : Nat) (data : Option ProductsData) :
    extract_productsT root fetchPage limit exBase data =
      ((runSpec pages (limit - 1) (cursorOf data + 1) [] (rowsOf data) []).1,
        (runSpec pages (limit - 1) (cursorOf data + 1) [] (rowsOf data) []).2.map
          pageUrl) := by
  cases data with
  | none =>
    show extractLoop root fetchPage (limit - 1)
        { current_page := (get_next_page_url_aux exBase 0).1,
          next_url := (get_next_page_url_aux exBase 0).2, seen_urls := [],
          product_links := [], products := [] } [] = _
    rw [get_next_aux_exBase]
    have := extractLoop_runSpec hf (limit - 1) (0 + 1) [] [] [] []
      (by intro j _ h; cases h)
    simpa [cursorOf, rowsOf] using this
  | some d =>
    show extractLoop root fetchPage (limit - 1)
        { current_page := (get_next_page_url_aux exBase d.state.page).1,
          next_url := (get_next_page_url_aux exBase d.state.page).2, seen_urls := [],
          product_links := [], products := d.rows } [] = _
    rw [get_next_aux_exBase]
    have := extractLoop_runSpec hf (limit - 1) (d.state.page + 1) [] [] d.rows []
      (by intro j _ h; cases h)
    simpa [cursorOf, rowsOf] using this

/-! ## Characterizations of `runSpec` -/

theorem pagesUrls_mem {pages : Int → List Link} {s0 : Int} {m : Nat} {u : String} :
    u ∈ pagesUrls pages s0 (m + 1) ↔
      u ∈ pagesUrls pages s0 m ∨ u ∈ urlsOf (pages (s0 + m)) := by
  show u ∈ pagesUrls pages s0 m ++ urlsOf (pages (s0 + m)) ↔ _
  exact List.mem_append

theorem collectedSeg_succ {pages : Int → List Link} {s0 : Int} {m n : Nat} :
    collectedSeg pages s0 m (n + 1) =
      appendedOf (pagesUrls pages s0 m) (pages (s0 + m)) ++
        collectedSeg pages s0 (m + 1) n := rfl

/-- A run of `fuel + 1` iterations in which every processed page introduces a
new URL ends by the cap, at page `s0 + m + fuel`. -/
theorem runSpec_cap {pages : Int → List Link} :
    ∀ (fuel : Nat) (m : Nat) (s0 : Int) (plinks : List String) (acc : List Link)
      (tr : List Int),
      (∀ u, u ∈ plinks ↔ u ∈ pagesUrls pages s0 m) →
      (∀ j : Nat, j ≤ fuel →
        ∃ l ∈ pages (s0 + (m + j : Nat)), l.url ∉ pagesUrls pages s0 (m + j)) →
      runSpec pages fuel (s0 + (m : Nat)) plinks acc tr =
        ({ state := { page := s0 + (m : Nat) + (fuel : Nat) },
           rows := acc ++ collectedSeg pages s0 m (fuel + 1) },
         tr ++ (List.range (fuel + 1)).map (fun j => s0 + (m : Nat) + (j : Nat))) := by
  intro fuel
  induction fuel with
  | zero =>
    intro m s0 plinks acc tr hpl hnew
    rw [runSpec_body]
    obtain ⟨l, hl, hlu⟩ := hnew 0 le_rfl
    have hfound : (processPage plinks acc (pages (s0 + (m : Nat)))).2.2 = true := by
      rw [processPage_found]
      refine ⟨l, ?_, fun hc => hlu (hpl l.url |>.mp hc)⟩
      simpa using hl
    rw [if_neg (by simp [hfound])]
    dsimp only
    have hrows : (processPage plinks acc (pages (s0 + (m : Nat)))).2.1 =
        acc ++ collectedSeg pages s0 m 1 := by
      rw [processPage_rows, collectedSeg_succ]
      have := processPage_congr (pages (s0 + (m : Nat))) plinks
        (pagesUrls pages s0 m) [] (fun x _ => hpl x.url)
      unfold appendedOf
      rw [this.1]
      simp [collectedSeg]
    rw [hrows]
    have hpage : s0 + (m : Nat) + 1 - 1 = s0 + (m : Nat) + ((0 : Nat) : Int) := by
      omega
    rw [hpage]
    simp [show List.range 1 = [0] from rfl]
  | succ fuel ih =>
    intro m s0 plinks acc tr hpl hnew
    rw [runSpec_body]
    obtain ⟨l, hl, hlu⟩ := hnew 0 (by omega)
    have hfound : (processPage plinks acc (pages (s0 + (m : Nat)))).2.2 = true := by
      rw [processPage_found]
      refine ⟨l, ?_, fun hc => hlu (hpl l.url |>.mp hc)⟩
      simpa using hl
    rw [if_neg (by simp [hfound])]
    dsimp only
    have hpl' : ∀ u, u ∈ (processPage plinks acc (pages (s0 + (m : Nat)))).1 ↔
        u ∈ pagesUrls pages s0 (m + 1) := by
      intro u
      rw [processPage_plinks, pagesUrls_mem]
      rw [hpl u]
    have hnew' : ∀ j : Nat, j ≤ fuel →
        ∃ l ∈ pages (s0 + ((m + 1) + j : Nat)), l.url ∉ pagesUrls pages s0 ((m + 1) + j) := by
      intro j hj
      have heq : (m + 1) + j = m + (j + 1) := by omega
      rw [heq]
      exact hnew (j + 1) (by omega)
    have hk : s0 + (m : Nat) + 1 = s0 + ((m + 1 : Nat) : Int) := by push_cast; ring
    rw [hk, ih (m + 1) s0 _ _ (tr ++ [s0 + (m : Nat)]) hpl' hnew']
    have hrows : (processPage plinks acc (pages (s0 + (m : Nat)))).2.1 =
        acc ++ appendedOf (pagesUrls pages s0 m) (pages (s0 + (m : Nat))) := by
      rw [processPage_rows]
      have := processPage_congr (pages (s0 + (m : Nat))) plinks
        (pagesUrls pages s0 m) [] (fun x _ => hpl x.url)
      unfold appendedOf
      rw [this.1]
    rw [hrows]
    refine congrArg₂ Prod.mk ?_ ?_
    · have hpage : s0 + ((m + 1 : Nat) : Int) + (fuel : Nat) =
          s0 + (m : Nat) + ((fuel + 1 : Nat) : Int) := by push_cast; ring
      rw [hpage]
      simp only [collectedSeg_succ]
      push_cast
      simp [List.append_assoc]
    · have htr : ([s0 + (m : Nat)] : List Int) ++
          (List.range (fuel + 1)).map (fun j => s0 + ((m + 1 : Nat) : Int) + (j : Nat)) =
          (List.range (fuel + 1 + 1)).map (fun j => s0 + (m : Nat) + (j : Nat)) := by
        conv_rhs => rw [List.range_succ_eq_map]
        simp only [List.map_cons, List.map_map, List.singleton_append]
        congr 1
        · push_cast; ring
        · refine List.map_congr_left ?_
          intro j _
          simp only [Function.comp]
          push_cast
          ring
      rw [List.append_assoc, htr]

/-- A run whose first `n` pages introduce new URLs and whose page `n` does not
ends by the stall, at page `s0 + m + n - 1`. -/
theorem runSpec_stall {pages : Int → List Link} :
    ∀ (n fuel : Nat) (m : Nat) (s0 : Int) (plinks : List String) (acc : List Link)
      (tr : List Int),
      n ≤ fuel →
      (∀ u, u ∈ plinks ↔ u ∈ pagesUrls pages s0 m) →
      (∀ j : Nat, j < n →
        ∃ l ∈ pages (s0 + (m + j : Nat)), l.url ∉ pagesUrls pages s0 (m + j)) →
      (∀ l ∈ pages (s0 + (m + n : Nat)), l.url ∈ pagesUrls pages s0 (m + n)) →
      runSpec pages fuel (s0 + (m : Nat)) plinks acc tr =
        ({ state := { page := s0 + (m : Nat) + (n : Nat) - 1 },
           rows := acc ++ collectedSeg pages s0 m n },
         tr ++ (List.range (n + 1)).map (fun j => s0 + (m : Nat) + (j : Nat))) := by
  intro n
  induction n with
  | zero =>
    intro fuel m s0 plinks acc tr _ hpl _ hstall
    rw [runSpec_body]
    have hfound : (processPage plinks acc (pages (s0 + (m : Nat)))).2.2 = false := by
      have : ¬ (processPage plinks acc (pages (s0 + (m : Nat)))).2.2 = true := by
        rw [processPage_found]
        rintro ⟨l, hl, hlu⟩
        exact hlu ((hpl l.url).mpr (by simpa using hstall l hl))
      exact Bool.eq_false_iff.mpr (fun hc => this hc)
    rw [if_pos hfound]
    have hrows : (processPage plinks acc (pages (s0 + (m : Nat)))).2.1 = acc := by
      rw [processPage_rows, appendedOf_empty_of_sub (fun x hx =>
        (hpl x.url).mpr (by simpa using hstall x (by simpa using hx)))]
      simp
    rw [hrows]
    refine congrArg₂ Prod.mk ?_ ?_
    · have h0 : s0 + (m : Nat) - 1 = s0 + (m : Nat) + ((0 : Nat) : Int) - 1 := by omega
      rw [h0]
      simp [collectedSeg]
    · simp [show List.range 1 = [0] from rfl]
  | succ n ih =>
    intro fuel m s0 plinks acc tr hnf hpl hnew hstall
    obtain ⟨fuel', rfl⟩ : ∃ f, fuel = f + 1 := ⟨fuel - 1, by omega⟩
    rw [runSpec_body]
    obtain ⟨l, hl, hlu⟩ := hnew 0 (by omega)
    have hfound : (processPage plinks acc (pages (s0 + (m : Nat)))).2.2 = true := by
      rw [processPage_found]
      refine ⟨l, ?_, fun hc => hlu (hpl l.url |>.mp hc)⟩
      simpa using hl
    rw [if_neg (by simp [hfound])]
    dsimp only
    have hpl' : ∀ u, u ∈ (processPage plinks acc (pages (s0 + (m : Nat)))).1 ↔
        u ∈ pagesUrls pages s0 (m + 1) := by
      intro u
      rw [processPage_plinks, pagesUrls_mem]
      rw [hpl u]
    have hnew' : ∀ j : Nat, j < n →
        ∃ l ∈ pages (s0 + ((m + 1) + j : Nat)), l.url ∉ pagesUrls pages s0 ((m + 1) + j) := by
      intro j hj
      have heq : (m + 1) + j = m + (j + 1) := by omega
      rw [heq]
      exact hnew (j + 1) (by omega)
    have hstall' : ∀ l ∈ pages (s0 + ((m + 1) + n : Nat)),
        l.url ∈ pagesUrls pages s0 ((m + 1) + n) := by
      have heq : (m + 1) + n = m + (n + 1) := by omega
      rw [heq]
      exact hstall
    have hk : s0 + (m : Nat) + 1 = s0 + ((m + 1 : Nat) : Int) := by push_cast; ring
    rw [hk, ih fuel' (m + 1) s0 _ _ (tr ++ [s0 + (m : Nat)]) (by omega) hpl' hnew' hstall']
    have hrows : (processPage plinks acc (pages (s0 + (m : Nat)))).2.1 =
        acc ++ appendedOf (pagesUrls pages s0 m) (pages (s0 + (m : Nat))) := by
      rw [processPage_rows]
      have := processPage_congr (pages (s0 + (m : Nat))) plinks
        (pagesUrls pages s0 m) [] (fun x _ => hpl x.url)
      unfold appendedOf
      rw [this.1]
    rw [hrows]
    refine congrArg₂ Prod.mk ?_ ?_
    · have hpage : s0 + ((m + 1 : Nat) : Int) + (n : Nat) - 1 =
          s0 + (m : Nat) + ((n + 1 : Nat) : Int) - 1 := by push_cast; ring
      rw [hpage]
      simp only [collectedSeg_succ]
      push_cast
      simp [List.append_assoc]
    · have htr : ([s0 + (m : Nat)] : List Int) ++
          (List.range (n + 1)).map (fun j => s0 + ((m + 1 : Nat) : Int) + (j : Nat)) =
          (List.range (n + 1 + 1)).map (fun j => s0 + (m : Nat) + (j : Nat)) := by
        conv_rhs => rw [List.range_succ_eq_map]
        simp only [List.map_cons, List.map_map, List.singleton_append]
        congr 1
        · push_cast; ring
        · refine List.map_congr_left ?_
          intro j _
          simp only [Function.comp]
          push_cast
          ring
      rw [List.append_assoc, htr]

/-! ## Claim theorems -/

/-- C10: for every tag other than `"collections"` and `"products"`, and for
every parent datum and prior checkpoint, the `directory` operation returns no
result (`none`) — the Python function falls off the end without raising and
without producing a row, so a stage run under an unregistered tag silently
checkpoints empty/`None` rows. -/
theorem C10_unregistered_tag_returns_none (root : String)
    (fetchPage : String → List Anchor) (pages_limit : Nat) (tag parent_url : String)
    (data : Option ProductsData) (h1 : tag ≠ "collections") (h2 : tag ≠ "products") :
    directory root fetchPage pages_limit tag parent_url data = none := by
  simp [directory, h1, h2]

theorem C10_unregistered_tag_returns_none_witness :
    ("details" : String) ≠ "collections" ∧ ("details" : String) ≠ "products" ∧
      directory exBase (fun _ => []) 3 "details" exBase none = none :=
  ⟨by decide, by decide,
    C10_unregistered_tag_returns_none exBase (fun _ => []) 3 "details" exBase none
      (by decide) (by decide)⟩

/-- C8: for every directory or detail stage requested with a declared parent
stage whose checkpoint is absent (`load_json` returns `None`) or loads as an
empty mapping, the operation aborts with the `ValueError` message rather than
proceeding with empty data, and the child stage's previously persisted
checkpoint is left untouched (nothing is written for the child stage). -/
theorem C8_missing_parent_aborts {α : Type}
    (extractDir : String → Option (List (String × α)) → Option (List (String × α)) →
      List (String × α))
    (extractDet : String → List (String × α) → List (String × α))
    (store : Store α) (tag p : String)
    (h : store p = none ∨ store p = some []) :
    scrape_directory extractDir store tag (some p) =
        .error ("No data found for parent tag: " ++ p) ∧
      scrape_directory_store extractDir store tag (some p) = store ∧
      scrape_detail extractDet store tag p =
        .error ("No data found for tag: " ++ p) ∧
      scrape_detail_store extractDet store tag p = store := by
  have hdir : scrape_directory extractDir store tag (some p) =
      .error ("No data found for parent tag: " ++ p) := by
    rcases h with h | h <;>
      simp [scrape_directory, h]
  have hdet : scrape_detail extractDet store tag p =
      .error ("No data found for tag: " ++ p) := by
    rcases h with h | h <;>
      simp [scrape_detail, h]
  refine ⟨hdir, ?_, hdet, ?_⟩
  · rw [scrape_directory_store, hdir]
  · rw [scrape_detail_store, hdet]

theorem C8_missing_parent_aborts_witness :
    ((fun t => if t = "collections" then some ([] : List (String × Nat)) else none)
        "collections" = none ∨
      (fun t => if t = "collections" then some ([] : List (String × Nat)) else none)
        "collections" = some []) ∧
    scrape_directory (fun _ _ _ => [])
        (fun t => if t = "collections" then some ([] : List (String × Nat)) else none)
        "products" (some "collections") =
      .error ("No data found for parent tag: " ++ "collections") := by
  refine ⟨Or.inr rfl, ?_⟩
  exact (C8_missing_parent_aborts (fun _ _ _ => []) (fun _ d => d)
    (fun t => if t = "collections" then some ([] : List (String × Nat)) else none)
    "products" "collections" (Or.inr rfl)).1

/-- C9 counterexample: two URLs whose normalized forms are equal (the `www.`
label is stripped by normalization) receive different ids, because
`get_id_from_url` works on the raw netloc + path. -/
theorem C9_counterexample :
    normalize_url "https://www.example.com/x" = normalize_url "https://example.com/x" ∧
      get_id_from_url "https://www.example.com/x" ≠
        get_id_from_url "https://example.com/x" := by
  constructor
  · decide
  · decide

/-- C9 amended: `deriveId` (`get_id_from_url`) is a pure function of the
URL's netloc and path, so the same URL string — and more generally any two
URLs sharing netloc and path — always yields the same id across runs; URLs
that agree only after normalization may receive different ids. -/
theorem C9_id_determined_by_netloc_path (u v : String)
    (hn : (urlsplitL u.data).netloc = (urlsplitL v.data).netloc)
    (hp : (urlsplitL u.data).path = (urlsplitL v.data).path) :
    get_id_from_url u = get_id_from_url v := by
  simp only [get_id_from_url]
  rw [hn, hp]

theorem C9_id_determined_by_netloc_path_witness :
    (urlsplitL "https://e.com/p?a=1".data).netloc =
        (urlsplitL "https://e.com/p#f".data).netloc ∧
      (urlsplitL "https://e.com/p?a=1".data).path =
        (urlsplitL "https://e.com/p#f".data).path ∧
      get_id_from_url "https://e.com/p?a=1" = get_id_from_url "https://e.com/p#f" :=
  ⟨by decide, by decide,
    C9_id_determined_by_netloc_path "https://e.com/p?a=1" "https://e.com/p#f"
      (by decide) (by decide)⟩

/-- C6 counterexample: on `https://example.com/list?a=&page=4` with absent
`currentPage`, the code returns `https://example.com/list?page=5`, whereas the
claim ("all other query parameters preserved") expects
`https://example.com/list?a=&page=5`: the blank-valued parameter `a` is
dropped by `parse_qs`. -/
theorem C6_counterexample :
    get_next_page_url "https://example.com/list?a=&page=4" none =
        some (5, "https://example.com/list?page=5") ∧
      specNextUrl "https://example.com/list?a=&page=4" 5 =
        "https://example.com/list?a=&page=5" ∧
      ("https://example.com/list?page=5" : String) ≠
        "https://example.com/list?a=&page=5" := by
  refine ⟨?_, ?_, ?_⟩
  · decide
  · decide
  · decide

theorem rebuilt_query_no_hash {q : List Char} (hq : '#' ∉ q) (n : Int) :
    '#' ∉ urlencodeL (dictSet pageKey [intReprL n] (parse_qs q)) := by
  intro hm
  rcases urlencode_chars '#' hm with h | h | ⟨e, he, h⟩
  · exact absurd h (by decide)
  · exact absurd h (by decide)
  · rcases dictSet_entries e he with ⟨h1, h2⟩ | hd
    · rcases h with h | ⟨v, hv, h⟩
      · rw [h1] at h
        exact absurd h (by decide)
      · rw [h2] at hv
        simp at hv
        rw [hv] at h
        exact intReprL_not_mem (by decide) (by decide) h
    · obtain ⟨_, _, _, h4, h5⟩ := parse_qs_pred e hd
      rcases h with h | ⟨v, hv, h⟩
      · exact hq (h4 '#' h)
      · exact hq ((h5 v hv).2.2 '#' h)

theorem modified_wf {u : UrlParts} (h : UrlWF u) (n : Int) :
    UrlWF { u with
      query := urlencodeL (dictSet pageKey [intReprL n] (parse_qs u.query)) } :=
  ⟨h.scheme_ne, h.scheme_alpha, h.scheme_chars, h.scheme_lower, h.netloc_ne,
    h.netloc_chars, h.path_slash, h.path_chars,
    rebuilt_query_no_hash h.query_hash n, h.fragment_hash⟩

theorem dictSet_page_QDictWF (q : List Char) (n : Int) :
    QDictWF (dictSet pageKey [intReprL n] (parse_qs q)) := by
  refine dictSet_QDictWF (parse_qs_QDictWF q) ⟨by decide, by decide⟩ ⟨by simp, ?_⟩
  intro w hw
  simp at hw
  rw [hw]
  exact ⟨intReprL_ne_nil, intReprL_not_mem (by decide) (by decide)⟩

theorem get_next_aux_unsplit {u : UrlParts} (hwf : UrlWF u) (n : Int) :
    get_next_page_url_aux (urlunsplitL u).asString n =
      (n + 1, (urlunsplitL { u with
        query := urlencodeL (dictSet pageKey [intReprL (n + 1)] (parse_qs u.query)) }).asString) := by
  unfold get_next_page_url_aux
  have hd : ((urlunsplitL u).asString).data = urlunsplitL u := rfl
  rw [hd, urlsplit_roundtrip hwf]
  rfl

/-- C6 amended: `get_next_page_url` is a pure function; with `currentPage`
given it returns `currentPage + 1`, and the next URL keeps the scheme,
netloc, path and fragment of `currentUrl` while its query becomes the
original parameters as retained by `parse_qs` — parameters with a blank
value or no `=` are dropped, multi-valued parameters are regrouped by name —
with `page` rewritten (or appended) as `currentPage + 1`; with `currentPage`
absent it is derived from the `page` query parameter already present
(default 0 if none). -/
theorem C6_next_page_rewrite (u : UrlParts) (hwf : UrlWF u) (n : Int) :
    (get_next_page_url_aux (urlunsplitL u).asString n).1 = n + 1 ∧
      urlsplitL (get_next_page_url_aux (urlunsplitL u).asString n).2.data =
        { u with
          query := urlencodeL (dictSet pageKey [intReprL (n + 1)] (parse_qs u.query)) } ∧
      parse_qs (urlsplitL
          (get_next_page_url_aux (urlunsplitL u).asString n).2.data).query =
        dictSet pageKey [intReprL (n + 1)] (parse_qs u.query) ∧
      dictFind pageKey (parse_qs (urlsplitL
          (get_next_page_url_aux (urlunsplitL u).asString n).2.data).query) =
        some [intReprL (n + 1)] ∧
      (∀ k, k ≠ pageKey →
        dictFind k (parse_qs (urlsplitL
            (get_next_page_url_aux (urlunsplitL u).asString n).2.data).query) =
          dictFind k (parse_qs u.query)) ∧
      get_next_page_url (urlunsplitL u).asString none =
        (derivedPage u).map
          (fun p => get_next_page_url_aux (urlunsplitL u).asString p) := by
  have hstep := get_next_aux_unsplit hwf n
  have hwf' := modified_wf hwf (n + 1)
  have hsplit : urlsplitL (get_next_page_url_aux (urlunsplitL u).asString n).2.data =
      { u with
        query := urlencodeL (dictSet pageKey [intReprL (n + 1)] (parse_qs u.query)) } := by
    rw [hstep]
    exact urlsplit_roundtrip hwf'
  have hq : parse_qs (urlsplitL
      (get_next_page_url_aux (urlunsplitL u).asString n).2.data).query =
      dictSet pageKey [intReprL (n + 1)] (parse_qs u.query) := by
    rw [hsplit]
    exact parse_qs_urlencode (dictSet_page_QDictWF u.query (n + 1))
  refine ⟨by rw [hstep], hsplit, hq, ?_, ?_, ?_⟩
  · rw [hq]
    exact dictFind_dictSet_self
  · intro k hk
    rw [hq]
    exact dictFind_dictSet_other hk
  · show (derivedPage (urlsplitL ((urlunsplitL u).asString).data)).map _ = _
    have hd : ((urlunsplitL u).asString).data = urlunsplitL u := rfl
    rw [hd, urlsplit_roundtrip hwf]

theorem C6_next_page_rewrite_witness :
    UrlWF ⟨"https".data, "example.com".data, "/list".data, "a=1".data, []⟩ ∧
      (get_next_page_url_aux
        (urlunsplitL ⟨"https".data, "example.com".data, "/list".data, "a=1".data, []⟩).asString
        4).1 = 4 + 1 := by
  have hwf : UrlWF (⟨"https".data, "example.com".data, "/list".data, "a=1".data, []⟩ :
      UrlParts) :=
    ⟨by decide, by decide, by decide, by decide, by decide, by decide,
      Or.inr (by decide), by decide, by decide, by decide⟩
  exact ⟨hwf, (C6_next_page_rewrite _ hwf 4).1⟩

/-- C7 counterexample: the anchor `⟨[], "aa", "/xyza"⟩` has visible text of
length ≥ 2, resolves to an internal URL, and the tag `"A"` occurs as a
case-insensitive substring of its href, yet `extract_links` does not retain
it: the code lowercases only the link attributes, never the tag. -/
theorem C7_counterexample :
    2 ≤ ("aa" : String).length ∧
      ciSubstr "A" "/xyza" = true ∧
      is_internal_link exBase (mkFullUrl exBase "/xyza") = true ∧
      extract_links exBase "A" [⟨[], "aa", "/xyza"⟩] = [] := by
  refine ⟨?_, ?_, ?_, ?_⟩
  · decide
  · decide
  · decide
  · decide

theorem extract_links_go_sound (root tag : String) :
    ∀ (page : List Anchor) (urls : List String),
      ∀ l ∈ extract_links_go root tag page urls,
        ∃ a ∈ page, a.text ≠ "" ∧ 2 ≤ a.text.length ∧ linkMatches tag a = true ∧
          is_internal_link root (mkFullUrl root a.href) = true ∧ l = mkLink root a := by
  intro page
  induction page with
  | nil => intro urls l hl; cases hl
  | cons a rest ih =>
    intro urls l hl
    rw [extract_links_go] at hl
    by_cases h1 : (a.text = "" || a.text.length < 2) = true
    · rw [if_pos h1] at hl
      obtain ⟨b, hb, hrest⟩ := ih urls l hl
      exact ⟨b, List.mem_cons_of_mem _ hb, hrest⟩
    · rw [if_neg h1] at hl
      simp only [Bool.or_eq_true, decide_eq_true_eq, not_or] at h1
      by_cases h2 : linkMatches tag a = true
      · rw [if_pos h2] at hl
        by_cases h3 : is_internal_link root (mkFullUrl root a.href) = true
        · rw [if_pos h3] at hl
          by_cases h4 : mkFullUrl root a.href ∈ urls
          · rw [if_pos h4] at hl
            obtain ⟨b, hb, hrest⟩ := ih urls l hl
            exact ⟨b, List.mem_cons_of_mem _ hb, hrest⟩
          · rw [if_neg h4] at hl
            rcases List.mem_cons.mp hl with hl | hl
            · exact ⟨a, List.mem_cons_self _ _, h1.1, by omega, h2, h3, hl⟩
            · obtain ⟨b, hb, hrest⟩ := ih _ l hl
              exact ⟨b, List.mem_cons_of_mem _ hb, hrest⟩
        · rw [if_neg h3] at hl
          obtain ⟨b, hb, hrest⟩ := ih urls l hl
          exact ⟨b, List.mem_cons_of_mem _ hb, hrest⟩
      · rw [if_neg h2] at hl
        obtain ⟨b, hb, hrest⟩ := ih urls l hl
        exact ⟨b, List.mem_cons_of_mem _ hb, hrest⟩

theorem extract_links_go_complete (root tag : String) :
    ∀ (page : List Anchor) (urls : List String), ∀ a ∈ page,
      2 ≤ a.text.length → linkMatches tag a = true →
      is_internal_link root (mkFullUrl root a.href) = true →
      mkFullUrl root a.href ∉ urls →
      ∃ l ∈ extract_links_go root tag page urls, l.url = mkFullUrl root a.href := by
  intro page
  induction page with
  | nil => intro urls a ha; cases ha
  | cons b rest ih =>
    intro urls a ha hlen hmatch hint hnot
    have hane : a.text ≠ "" := by
      intro he
      rw [he] at hlen
      simp at hlen
    rw [extract_links_go]
    by_cases h1 : (b.text = "" || b.text.length < 2) = true
    · rw [if_pos h1]
      rcases List.mem_cons.mp ha with ha | ha
      · exfalso
        rw [← ha] at h1
        simp only [Bool.or_eq_true, decide_eq_true_eq] at h1
        rcases h1 with h1 | h1
        · exact hane h1
        · omega
      · exact ih urls a ha hlen hmatch hint hnot
    · rw [if_neg h1]
      by_cases h2 : linkMatches tag b = true
      · rw [if_pos h2]
        by_cases h3 : is_internal_link root (mkFullUrl root b.href) = true
        · rw [if_pos h3]
          by_cases h4 : mkFullUrl root b.href ∈ urls
          · rw [if_pos h4]
            rcases List.mem_cons.mp ha with ha | ha
            · exact absurd (ha ▸ h4) hnot
            · exact ih urls a ha hlen hmatch hint hnot
          · rw [if_neg h4]
            by_cases h5 : mkFullUrl root a.href = mkFullUrl root b.href
            · exact ⟨mkLink root b, List.mem_cons_self _ _, h5.symm⟩
            · rcases List.mem_cons.mp ha with ha | ha
              · exact absurd (ha ▸ rfl) h5
              · obtain ⟨l, hl, hlu⟩ := ih (mkFullUrl root b.href :: urls) a ha hlen
                  hmatch hint (by
                    intro hm
                    rcases List.mem_cons.mp hm with hm | hm
                    · exact h5 hm
                    · exact hnot hm)
                exact ⟨l, List.mem_cons_of_mem _ hl, hlu⟩
        · rw [if_neg h3]
          rcases List.mem_cons.mp ha with ha | ha
          · exact absurd (ha ▸ hint) h3
          · exact ih urls a ha hlen hmatch hint hnot
      · rw [if_neg h2]
        rcases List.mem_cons.mp ha with ha | ha
        · exact absurd (ha ▸ hmatch) h2
        · exact ih urls a ha hlen hmatch hint hnot

/-- C7 amended: the Link Collector retains a link iff its visible text is at
least 2 characters long, the tag *as written* occurs as a substring of one of
the link's lowercased class attributes, its lowercased href, or its lowercased
visible text (so the match is case-insensitive only in the link attributes,
not in the tag), and the link resolves to an internal URL after
normalization.  Soundness: every collected row comes from such an anchor;
completeness: every such anchor's resolved URL appears among the rows. -/
theorem C7_link_classification (root tag : String) (page : List Anchor) :
    (∀ l ∈ extract_links root tag page,
      ∃ a ∈ page, a.text ≠ "" ∧ 2 ≤ a.text.length ∧ linkMatches tag a = true ∧
        is_internal_link root (mkFullUrl root a.href) = true ∧ l = mkLink root a) ∧
    (∀ a ∈ page, 2 ≤ a.text.length → linkMatches tag a = true →
      is_internal_link root (mkFullUrl root a.href) = true →
      ∃ l ∈ extract_links root tag page, l.url = mkFullUrl root a.href) := by
  constructor
  · exact extract_links_go_sound root tag page []
  · intro a ha hlen hmatch hint
    exact extract_links_go_complete root tag page [] a ha hlen hmatch hint
      (by intro h; cases h)

theorem C7_link_classification_witness :
    2 ≤ ("Nice Product" : String).length ∧
      linkMatches "products" ancA = true ∧
      is_internal_link exBase (mkFullUrl exBase ancA.href) = true ∧
      ∃ l ∈ extract_links exBase "products" [ancA],
        l.url = mkFullUrl exBase ancA.href := by
  refine ⟨by decide, by decide, by decide, ?_⟩
  exact (C7_link_classification exBase "products" [ancA]).2 ancA
    (List.mem_cons_self _ _) (by decide) (by decide) (by decide)

/-- C5 counterexample: for the example page sequence (page 0 = A, B;
page 1 = B, C; page 2 repeats A, B, C) a fresh traversal returns
`rows = [B, C, A]` and `state.page = 2`, not `rows = [A, B, C]` and
`state.page = 1`: page 0 is never fetched. -/
theorem C5_counterexample :
    (extract_products exBase fetchC5 3 exBase none).rows = [linkB, linkC, linkA] ∧
      (extract_products exBase fetchC5 3 exBase none).state.page = 2 ∧
      ([linkB, linkC, linkA] : List Link) ≠ [linkA, linkB, linkC] ∧
      (2 : Int) ≠ 1 := by
  refine ⟨?_, ?_, ?_, ?_⟩
  · decide
  · decide
  · decide
  · decide

/-- C5 amended: with no prior checkpoint the cursor starts at page 0, but the
first URL fetched is page 1 (page 0 is never requested); for the example
sequence the invocation fetches pages 1, 2, 3 and returns
`rows = [B, C, A]`, `state.page = 2`. -/
theorem C5_fresh_start_example :
    extract_productsT exBase fetchC5 3 exBase none =
      ({ state := { page := 2 }, rows := [linkB, linkC, linkA] },
        [pageUrl 1, pageUrl 2, pageUrl 3]) := by
  decide

/-- C2 counterexample: with a prior checkpoint whose rows already contain
link A, a page serving A again appends it once more — `product_links` starts
empty each invocation, so the prior checkpoint's rows are not consulted and
the resulting rows hold two entries with equal url. -/
theorem C2_counterexample :
    (extract_products exBase fetchC2 3 exBase
        (some { state := { page := 0 }, rows := [linkA] })).rows = [linkA, linkA] ∧
      ¬ (urlsOf (extract_products exBase fetchC2 3 exBase
        (some { state := { page := 0 }, rows := [linkA] })).rows).Nodup := by
  refine ⟨?_, ?_⟩
  · decide
  · decide

theorem appendedOf_sub :
    ∀ (l : List Link) (plinks : List String), ∀ x ∈ appendedOf plinks l, x ∈ l := by
  intro l
  induction l with
  | nil => intro plinks x hx; cases hx
  | cons p rest ih =>
    intro plinks x hx
    by_cases hm : p.url ∈ plinks
    · have he : appendedOf plinks (p :: rest) = appendedOf plinks rest := by
        simp only [appendedOf, processPage, if_pos hm]
      rw [he] at hx
      exact List.mem_cons_of_mem _ (ih plinks x hx)
    · have he : appendedOf plinks (p :: rest) = p :: appendedOf (p.url :: plinks) rest := by
        show (processPage plinks [] (p :: rest)).2.1 = _
        simp only [processPage, if_neg hm]
        rw [processPage_rows]
        simp
      rw [he] at hx
      rcases List.mem_cons.mp hx with hx | hx
      · exact hx ▸ List.mem_cons_self _ _
      · exact List.mem_cons_of_mem _ (ih _ x hx)

theorem extractLoop_dedup (root : String) (fp : String → List Anchor) :
    ∀ (fuel : Nat) (st : LoopState) (tr : List String) (prior newAcc : List Link),
      st.products = prior ++ newAcc → (urlsOf newAcc).Nodup →
      (∀ u ∈ urlsOf newAcc, u ∈ st.product_links) →
      ∃ s, (extractLoop root fp fuel st tr).1.rows = prior ++ s ∧ (urlsOf s).Nodup := by
  have hstep : ∀ (st : LoopState) (prior newAcc : List Link),
      st.products = prior ++ newAcc → (urlsOf newAcc).Nodup →
      (∀ u ∈ urlsOf newAcc, u ∈ st.product_links) →
      ∀ fetched : List Link,
        (processPage st.product_links st.products fetched).2.1 =
          prior ++ (newAcc ++ appendedOf st.product_links fetched) ∧
        (urlsOf (newAcc ++ appendedOf st.product_links fetched)).Nodup := by
    intro st prior newAcc h1 h2 h3 fetched
    constructor
    · rw [processPage_rows, h1, List.append_assoc]
    · rw [urlsOf, List.map_append, List.nodup_append]
      refine ⟨h2, (appendedOf_nodup fetched st.product_links).1, ?_⟩
      intro u hu hu2
      exact (appendedOf_nodup fetched st.product_links).2 u hu2 (h3 u hu)
  intro fuel
  induction fuel with
  | zero =>
    intro st tr prior newAcc h1 h2 h3
    rw [extractLoop.eq_def]
    dsimp only
    by_cases hc : st.next_url = "" ∨ st.next_url ∈ st.seen_urls
    · rw [if_pos hc]
      exact ⟨newAcc, h1, h2⟩
    · rw [if_neg hc]
      obtain ⟨hr, hn⟩ := hstep st prior newAcc h1 h2 h3
        (extract_links root "products" (fp st.next_url))
      by_cases hf : (processPage st.product_links st.products
          (extract_links root "products" (fp st.next_url))).2.2 = false
      · rw [if_pos hf]
        exact ⟨_, hr, hn⟩
      · rw [if_neg hf]
        exact ⟨_, hr, hn⟩
  | succ fuel ih =>
    intro st tr prior newAcc h1 h2 h3
    rw [extractLoop.eq_def]
    dsimp only
    by_cases hc : st.next_url = "" ∨ st.next_url ∈ st.seen_urls
    · rw [if_pos hc]
      exact ⟨newAcc, h1, h2⟩
    · rw [if_neg hc]
      obtain ⟨hr, hn⟩ := hstep st prior newAcc h1 h2 h3
        (extract_links root "products" (fp st.next_url))
      by_cases hf : (processPage st.product_links st.products
          (extract_links root "products" (fp st.next_url))).2.2 = false
      · rw [if_pos hf]
        exact ⟨_, hr, hn⟩
      · rw [if_neg hf]
        refine ih _ _ prior (newAcc ++ appendedOf st.product_links
          (extract_links root "products" (fp st.next_url))) hr hn ?_
        intro u hu
        simp only [urlsOf, List.map_append, List.mem_append] at hu
        rcases hu with hu | hu
        · exact (processPage_plinks _ _ _ _).mpr (Or.inl (h3 u hu))
        · refine (processPage_plinks _ _ _ _).mpr (Or.inr ?_)
          rw [List.mem_map] at hu
          obtain ⟨x, hx, rfl⟩ := hu
          simp only [urlsOf, List.mem_map]
          exact ⟨x, appendedOf_sub _ _ x hx, rfl⟩

/-- C2 amended: deduplication is per-invocation only: the rows returned by
`extract_products` are the prior checkpoint's rows followed by the links
appended in this invocation, and among the appended links no two have equal
url (each is also absent from the invocation's seen-set when appended); links
carried over in the prior checkpoint's rows are *not* consulted, so a URL
already present there can be appended again. -/
theorem C2_dedup_per_invocation (root : String) (fetchPage : String → List Anchor)
    (limit : Nat) (url : String) (data : Option ProductsData) :
    ∃ s, (extract_products root fetchPage limit url data).rows = rowsOf data ++ s ∧
      (urlsOf s).Nodup := by
  unfold extract_products extract_productsT
  cases data with
  | none =>
    exact extractLoop_dedup root fetchPage (limit - 1) _ [] [] [] rfl
      (by simp [urlsOf]) (by simp [urlsOf])
  | some d =>
    exact extractLoop_dedup root fetchPage (limit - 1) _ [] d.rows [] (by simp)
      (by simp [urlsOf]) (by simp [urlsOf])

/-- C4: cap semantics.  With the page-run cap `pages_limit = 3`, an invocation
of the traversal in which every fetched page introduces at least one URL not
collected earlier in the invocation fetches exactly the three pages
`startPage`, `startPage + 1`, `startPage + 2` — where `startPage = cursor + 1`
is the first page actually requested — and returns
`state.page = startPage + 2`. -/
theorem C4_cap_semantics {root : String} {fetchPage : String → List Anchor}
    {pages : Int → List Link}
    (hf : ∀ i : Int, extract_links root "products" (fetchPage (pageUrl i)) = pages i)
    (data : Option ProductsData)
    (hnew : ∀ j : Nat, j ≤ 2 →
      ∃ l ∈ pages (cursorOf data + 1 + (j : Int)),
        l.url ∉ pagesUrls pages (cursorOf data + 1) j) :
    (extract_productsT root fetchPage 3 exBase data).2 =
      [pageUrl (cursorOf data + 1), pageUrl (cursorOf data + 1 + 1),
        pageUrl (cursorOf data + 1 + 2)] ∧
    (extract_productsT root fetchPage 3 exBase data).1.state.page =
      cursorOf data + 1 + 2 := by
  have h := extract_productsT_runSpec hf 3 data
  have hc := runSpec_cap 2 0 (cursorOf data + 1) [] (rowsOf data) []
    (by intro u; simp [pagesUrls])
    (by intro j hj; simpa using hnew j hj)
  simp only [Nat.cast_zero, add_zero] at hc
  have h31 : (3 : Nat) - 1 = 2 := rfl
  rw [h31] at h
  rw [h]
  dsimp only
  rw [hc]
  constructor
  · simp [show List.range 3 = [0, 1, 2] from rfl]
  · dsimp only
    norm_num

theorem C4_cap_semantics_witness :
    (extract_productsT exBase (fetchOfA apW4) 3 exBase none).2 =
      [pageUrl (cursorOf none + 1), pageUrl (cursorOf none + 1 + 1),
        pageUrl (cursorOf none + 1 + 2)] ∧
    (extract_productsT exBase (fetchOfA apW4) 3 exBase none).1.state.page =
      cursorOf none + 1 + 2 :=
  @C4_cap_semantics exBase (fetchOfA apW4)
    (fun i => extract_links exBase "products" (apW4 i))
    (fun i => by rw [fetchOfA_pageUrl]) none (by decide)

/-- C3 counterexample: in the `fetchC3` page sequence, page 5 introduces zero
links not already seen (K = 5), yet an invocation with the code's cap of 3
returns `state.page = 3`, not `K - 1 = 4`: the cap stops the run before the
stalling page is ever reached, so the claim's unconditional quantification
over page sequences fails. -/
theorem C3_counterexample :
    (∀ l ∈ extract_links exBase "products" (fetchC3 (pageUrl 5)),
      l.url ∈ pagesUrls
        (fun i => extract_links exBase "products" (fetchC3 (pageUrl i))) 1 4) ∧
    (extract_products exBase fetchC3 3 exBase none).state.page = 3 ∧
    ((3 : Int) = 5 - 1 → False) := by
  refine ⟨?_, ?_, ?_⟩
  · decide
  · decide
  · decide

/-- C3 amended: stall semantics holds only when the stalling page lies within
the page-run cap.  If the pages `startPage, ..., startPage + n - 1` each
introduce a new URL, page `startPage + n` introduces none, and `n` does not
exceed `limit - 1` (so the stall occurs before the cap), then the invocation
returns `state.page = (startPage + n) - 1` and fetches exactly the pages
`startPage, ..., startPage + n` — none beyond the stalling page. -/
theorem C3_stall_semantics {root : String} {fetchPage : String → List Anchor}
    {pages : Int → List Link}
    (hf : ∀ i : Int, extract_links root "products" (fetchPage (pageUrl i)) = pages i)
    (limit : Nat) (data : Option ProductsData) (n : Nat)
    (hn : n ≤ limit - 1)
    (hnew : ∀ j : Nat, j < n →
      ∃ l ∈ pages (cursorOf data + 1 + (j : Int)),
        l.url ∉ pagesUrls pages (cursorOf data + 1) j)
    (hstall : ∀ l ∈ pages (cursorOf data + 1 + (n : Int)),
      l.url ∈ pagesUrls pages (cursorOf data + 1) n) :
    (extract_productsT root fetchPage limit exBase data).1.state.page =
      cursorOf data + 1 + (n : Int) - 1 ∧
    (extract_productsT root fetchPage limit exBase data).2 =
      (List.range (n + 1)).map
        (fun j : Nat => pageUrl (cursorOf data + 1 + (j : Int))) := by
  have h := extract_productsT_runSpec hf limit data
  have hs := runSpec_stall n (limit - 1) 0 (cursorOf data + 1) [] (rowsOf data) [] hn
    (by intro u; simp [pagesUrls])
    (by intro j hj; simpa using hnew j hj)
    (by
      intro l hl
      have h0 : ((0 + n : Nat) : Int) = (n : Int) := by push_cast; ring
      rw [show (0 + n : Nat) = n from by omega]
      exact hstall l (by
        have : cursorOf data + 1 + ((0 + n : Nat) : Int) =
            cursorOf data + 1 + (n : Int) := by rw [h0]
        rw [this] at hl
        exact hl))
  simp only [Nat.cast_zero, add_zero] at hs
  rw [h]
  dsimp only
  rw [hs]
  constructor
  · rfl
  · dsimp only
    rw [List.nil_append, List.map_map]
    rfl

theorem C3_stall_semantics_witness :
    (extract_productsT exBase (fetchOfA apW3) 3 exBase none).1.state.page =
      cursorOf none + 1 + (1 : Nat) - 1 ∧
    (extract_productsT exBase (fetchOfA apW3) 3 exBase none).2 =
      (List.range (1 + 1)).map
        (fun j : Nat => pageUrl (cursorOf none + 1 + (j : Int))) :=
  @C3_stall_semantics exBase (fetchOfA apW3)
    (fun i => extract_links exBase "products" (apW3 i))
    (fun i => by rw [fetchOfA_pageUrl]) 3 none 1 (by decide) (by decide) (by decide)

theorem appendedOf_cons (p : Link) (rest : List Link) (plinks : List String) :
    appendedOf plinks (p :: rest) =
      if p.url ∈ plinks then appendedOf plinks rest
      else p :: appendedOf (p.url :: plinks) rest := by
  by_cases hm : p.url ∈ plinks
  · rw [if_pos hm]
    simp only [appendedOf, processPage, if_pos hm]
  · rw [if_neg hm]
    show (processPage plinks [] (p :: rest)).2.1 = _
    simp only [processPage, if_neg hm]
    rw [processPage_rows]
    simp

theorem appendedOf_congr :
    ∀ (l : List Link) (pl1 pl2 : List String),
      (∀ u ∈ urlsOf l, (u ∈ pl1 ↔ u ∈ pl2)) → appendedOf pl1 l = appendedOf pl2 l := by
  intro l
  induction l with
  | nil => intro pl1 pl2 h; rfl
  | cons p rest ih =>
    intro pl1 pl2 h
    have hp : p.url ∈ urlsOf (p :: rest) := List.mem_cons_self _ _
    have hrest : ∀ u ∈ urlsOf rest, u ∈ urlsOf (p :: rest) := by
      intro u hu
      exact List.mem_cons_of_mem _ hu
    rw [appendedOf_cons, appendedOf_cons]
    by_cases hm : p.url ∈ pl1
    · rw [if_pos hm, if_pos ((h _ hp).mp hm)]
      exact ih pl1 pl2 (fun u hu => h u (hrest u hu))
    · rw [if_neg hm, if_neg (fun hc => hm ((h _ hp).mpr hc))]
      refine congrArg (p :: ·) (ih _ _ ?_)
      intro u hu
      constructor
      · intro h1
        rcases List.mem_cons.mp h1 with h1 | h1
        · exact h1 ▸ List.mem_cons_self _ _
        · exact List.mem_cons_of_mem _ ((h u (hrest u hu)).mp h1)
      · intro h1
        rcases List.mem_cons.mp h1 with h1 | h1
        · exact h1 ▸ List.mem_cons_self _ _
        · exact List.mem_cons_of_mem _ ((h u (hrest u hu)).mpr h1)

theorem appendedOf_pure (l : List Link) (plinks : List String)
    (h : ∀ u ∈ urlsOf l, u ∉ plinks) : appendedOf plinks l = dedupWithin l := by
  show appendedOf plinks l = appendedOf [] l
  refine appendedOf_congr l plinks [] ?_
  intro u hu
  exact ⟨fun hc => absurd hc (h u hu), fun hc => absurd hc (List.not_mem_nil u)⟩

theorem pagesUrls_mem_iff (pages : Int → List Link) (s : Int) :
    ∀ (n : Nat) (u : String),
      u ∈ pagesUrls pages s n ↔
        ∃ j : Nat, j < n ∧ u ∈ urlsOf (pages (s + (j : Int))) := by
  intro n
  induction n with
  | zero =>
    intro u
    constructor
    · intro h
      exact absurd h (List.not_mem_nil u)
    · rintro ⟨j, hj, _⟩
      omega
  | succ n ih =>
    intro u
    show u ∈ pagesUrls pages s n ++ urlsOf (pages (s + (n : Int))) ↔ _
    constructor
    · intro h
      rcases List.mem_append.mp h with h | h
      · obtain ⟨j, hj, hu⟩ := (ih u).mp h
        exact ⟨j, by omega, hu⟩
      · exact ⟨n, by omega, h⟩
    · rintro ⟨j, hj, hu⟩
      rcases Nat.lt_succ_iff_lt_or_eq.mp hj with hj | rfl
      · exact List.mem_append.mpr (Or.inl ((ih u).mpr ⟨j, hj, hu⟩))
      · exact List.mem_append.mpr (Or.inr hu)

theorem collectedSeg_pure (pages : Int → List Link) (s : Int) :
    ∀ (n m : Nat),
      (∀ j : Nat, j < n → ∀ u ∈ urlsOf (pages (s + ((m + j : Nat) : Int))),
        u ∉ pagesUrls pages s (m + j)) →
      collectedSeg pages s m n = pureRows pages (s + (m : Int)) n := by
  intro n
  induction n with
  | zero => intro m h; rfl
  | succ n ih =>
    intro m h
    show appendedOf (pagesUrls pages s m) (pages (s + (m : Int))) ++
        collectedSeg pages s (m + 1) n =
      dedupWithin (pages (s + (m : Int))) ++ pureRows pages (s + (m : Int) + 1) n
    have h0 : ∀ u ∈ urlsOf (pages (s + (m : Int))), u ∉ pagesUrls pages s m := by
      intro u hu
      have := h 0 (Nat.succ_pos n) u
      rw [show (m + 0 : Nat) = m from by omega] at this
      exact this hu
    rw [appendedOf_pure _ _ h0]
    congr 1
    have hrec : collectedSeg pages s (m + 1) n = pureRows pages (s + ((m + 1 : Nat) : Int)) n := by
      refine ih (m + 1) ?_
      intro j hj u hu
      have e : (m + 1) + j = m + (j + 1) := by omega
      rw [e] at hu ⊢
      exact h (j + 1) (by omega) u hu
    rw [hrec]
    congr 1
    push_cast
    ring

theorem pureRows_append (pages : Int → List Link) :
    ∀ (a b : Nat) (s : Int),
      pureRows pages s a ++ pureRows pages (s + (a : Int)) b = pureRows pages s (a + b) := by
  intro a
  induction a with
  | zero =>
    intro b s
    rw [Nat.zero_add]
    show [] ++ pureRows pages (s + ((0 : Nat) : Int)) b = pureRows pages s b
    rw [List.nil_append]
    congr 1
    push_cast
    ring
  | succ a ih =>
    intro b s
    have e2 : (a + 1) + b = (a + b) + 1 := by omega
    rw [e2]
    show (dedupWithin (pages s) ++ pureRows pages (s + 1) a) ++
        pureRows pages (s + ((a + 1 : Nat) : Int)) b =
      dedupWithin (pages s) ++ pureRows pages (s + 1) (a + b)
    rw [List.append_assoc]
    congr 1
    have e : s + ((a + 1 : Nat) : Int) = (s + 1) + (a : Int) := by push_cast; ring
    rw [e]
    exact ih b (s + 1)

theorem window_run {root : String} {fetchPage : String → List Anchor}
    {pages : Int → List Link} {E : Nat}
    (hf : ∀ i : Int, extract_links root "products" (fetchPage (pageUrl i)) = pages i)
    (hempty : pages (E : Int) = [])
    (hne : ∀ i : Int, 1 ≤ i → i < (E : Int) → pages i ≠ [])
    (hdisj : ∀ i j : Int, 1 ≤ i → i < j → j < (E : Int) →
      ∀ u ∈ urlsOf (pages i), u ∉ urlsOf (pages j))
    (hE1 : 1 ≤ E) (c : Nat) (hc : 1 ≤ c) (data : Option ProductsData) (p : Nat)
    (hdp : cursorOf data = (p : Int)) (hp : p ≤ E - 1) :
    extract_products root fetchPage c exBase data =
      { state := { page := ((min (p + c) (E - 1) : Nat) : Int) },
        rows := rowsOf data ++
          pureRows pages ((p : Int) + 1) (min (p + c) (E - 1) - p) } := by
  have hdisj' : ∀ j : Nat, (p + 1 + j) < E →
      ∀ u ∈ urlsOf (pages ((p : Int) + 1 + (j : Int))),
        u ∉ pagesUrls pages ((p : Int) + 1) j := by
    intro j hj u hu hmem
    obtain ⟨t, ht, hut⟩ := (pagesUrls_mem_iff pages _ j u).mp hmem
    exact hdisj ((p : Int) + 1 + (t : Int)) ((p : Int) + 1 + (j : Int))
      (by omega) (by omega) (by omega) u hut hu
  have hstep : ∀ j : Nat, (p + 1 + j) < E →
      ∃ l ∈ pages ((p : Int) + 1 + (j : Int)),
        l.url ∉ pagesUrls pages ((p : Int) + 1) j := by
    intro j hj
    have hne' : pages ((p : Int) + 1 + (j : Int)) ≠ [] := hne _ (by omega) (by omega)
    obtain ⟨l, hl⟩ := List.exists_mem_of_ne_nil _ hne'
    exact ⟨l, hl, hdisj' j hj l.url (List.mem_map_of_mem Link.url hl)⟩
  have hseg : ∀ n : Nat, p + n ≤ E - 1 →
      collectedSeg pages ((p : Int) + 1) 0 n = pureRows pages ((p : Int) + 1) n := by
    intro n hn
    have h := collectedSeg_pure pages ((p : Int) + 1) n 0 (by
      intro j hj u hu hmem
      rw [show (0 + j : Nat) = j from by omega] at hu hmem
      exact hdisj' j (by omega) u hu hmem)
    simp only [Nat.cast_zero, add_zero] at h
    exact h
  have hrs := extract_productsT_runSpec hf c data
  show (extract_productsT root fetchPage c exBase data).1 = _
  rw [hrs]
  dsimp only
  rw [hdp]
  by_cases hcase : p + c ≤ E - 1
  · have hcap := runSpec_cap (c - 1) 0 ((p : Int) + 1) [] (rowsOf data) []
      (by intro u; simp [pagesUrls])
      (by
        intro j hj
        have h := hstep j (by omega)
        simpa using h)
    simp only [Nat.cast_zero, add_zero] at hcap
    rw [hcap]
    dsimp only
    have e1 : (c - 1) + 1 = c := by omega
    rw [e1, hseg c (by omega)]
    have e2 : min (p + c) (E - 1) = p + c := by omega
    rw [e2]
    have e3 : p + c - p = c := by omega
    rw [e3]
    have e4 : (p : Int) + 1 + ((c - 1 : Nat) : Int) = ((p + c : Nat) : Int) := by omega
    rw [e4]
  · have hn1 : E - 1 - p ≤ c - 1 := by omega
    have hstall0 : ∀ l ∈ pages ((p : Int) + 1 + ((0 + (E - 1 - p) : Nat) : Int)),
        l.url ∈ pagesUrls pages ((p : Int) + 1) (0 + (E - 1 - p)) := by
      intro l hl
      exfalso
      have e : (p : Int) + 1 + ((0 + (E - 1 - p) : Nat) : Int) = (E : Int) := by omega
      rw [e, hempty] at hl
      exact absurd hl (List.not_mem_nil l)
    have hstl := runSpec_stall (E - 1 - p) (c - 1) 0 ((p : Int) + 1) [] (rowsOf data) [] hn1
      (by intro u; simp [pagesUrls])
      (by
        intro j hj
        have h := hstep j (by omega)
        simpa using h)
      hstall0
    simp only [Nat.cast_zero, add_zero] at hstl
    rw [hstl]
    dsimp only
    have e2 : min (p + c) (E - 1) = E - 1 := by omega
    rw [e2]
    rw [hseg (E - 1 - p) (by omega)]
    have e4 : (p : Int) + 1 + ((E - 1 - p : Nat) : Int) - 1 = ((E - 1 : Nat) : Int) := by
      omega
    rw [e4]

theorem schedule_invariant {root : String} {fetchPage : String → List Anchor}
    {pages : Int → List Link} {E : Nat}
    (hf : ∀ i : Int, extract_links root "products" (fetchPage (pageUrl i)) = pages i)
    (hempty : pages (E : Int) = [])
    (hne : ∀ i : Int, 1 ≤ i → i < (E : Int) → pages i ≠ [])
    (hdisj : ∀ i j : Int, 1 ≤ i → i < j → j < (E : Int) →
      ∀ u ∈ urlsOf (pages i), u ∉ urlsOf (pages j))
    (hE1 : 1 ≤ E) :
    ∀ (cs : List Nat) (p : Nat), p ≤ E - 1 → (∀ c ∈ cs, 1 ≤ c) →
      runSchedule root fetchPage exBase cs
          (some { state := { page := (p : Int) }, rows := pureRows pages 1 p }) =
        some { state := { page := ((min (p + cs.sum) (E - 1) : Nat) : Int) },
               rows := pureRows pages 1 (min (p + cs.sum) (E - 1)) } := by
  intro cs
  induction cs with
  | nil =>
    intro p hp hcs
    have e : min (p + List.sum []) (E - 1) = p := by
      simp only [List.sum_nil, Nat.add_zero]
      omega
    rw [e]
    rfl
  | cons c cs ih =>
    intro p hp hcs
    show runSchedule root fetchPage exBase cs
        (some (extract_products root fetchPage c exBase
          (some { state := { page := (p : Int) }, rows := pureRows pages 1 p }))) = _
    rw [window_run hf hempty hne hdisj hE1 c (hcs c (List.mem_cons_self _ _))
      (some { state := { page := (p : Int) }, rows := pureRows pages 1 p }) p rfl hp]
    simp only [rowsOf]
    have ecomm : (p : Int) + 1 = 1 + (p : Int) := by ring
    rw [ecomm, pureRows_append]
    have esum : p + (min (p + c) (E - 1) - p) = min (p + c) (E - 1) := by omega
    rw [esum]
    rw [ih (min (p + c) (E - 1)) (by omega)
      (fun c' hc' => hcs c' (List.mem_cons_of_mem _ hc'))]
    have efin : min (min (p + c) (E - 1) + List.sum cs) (E - 1) =
        min (p + List.sum (c :: cs)) (E - 1) := by
      rw [List.sum_cons]
      omega
    rw [efin]

/-- C1 counterexample: over the `fetchC1` page sequence (pages 1-3 fresh,
page 4 a repeat of page 1, page 5 empty), a single full invocation with cap
10 returns `rows = [A, B, C]`, `state.page = 3`, while the capped schedule
`[3, 10]` — resuming the second invocation from the first's checkpoint —
returns `rows = [A, B, C, A]`, `state.page = 4`: the second invocation starts
with an empty seen-set, re-appends the repeated link, and treats the repeat
page as progress.  Final rows and final `state.page` both differ. -/
theorem C1_counterexample :
    extract_products exBase fetchC1 10 exBase none =
      { state := { page := 3 }, rows := [linkA, linkB, linkC] } ∧
    runSchedule exBase fetchC1 exBase [3, 10] none =
      some { state := { page := 4 }, rows := [linkA, linkB, linkC, linkA] } ∧
    (([linkA, linkB, linkC, linkA] : List Link) = [linkA, linkB, linkC] → False) ∧
    ((4 : Int) = 3 → False) := by
  refine ⟨?_, ?_, ?_, ?_⟩
  · decide
  · decide
  · decide
  · decide

/-- C1 amended: resume is idempotent for page sequences on which no invocation
can mistake stale links for progress: if the pages `1, ..., E - 1` are each
nonempty and pairwise disjoint in their link URLs, page `E` is empty, the
single full invocation's cap `c0` covers the whole run (`E ≤ c0`), and the
cap schedule `cs` is nonempty with every cap positive and total at least
`E - 1`, then running the traversal once with cap `c0` and running the capped
schedule with each invocation resuming from the previous checkpoint yield
identical final `rows` and `state.page` — both equal to
`{ page := E - 1, rows := pureRows pages 1 (E - 1) }`. -/
theorem C1_resume_equivalence {root : String} {fetchPage : String → List Anchor}
    {pages : Int → List Link} {E : Nat}
    (hf : ∀ i : Int, extract_links root "products" (fetchPage (pageUrl i)) = pages i)
    (hempty : pages (E : Int) = [])
    (hne : ∀ i : Int, 1 ≤ i → i < (E : Int) → pages i ≠ [])
    (hdisj : ∀ i j : Int, 1 ≤ i → i < j → j < (E : Int) →
      ∀ u ∈ urlsOf (pages i), u ∉ urlsOf (pages j))
    (hE1 : 1 ≤ E) (c0 : Nat) (hc0 : E ≤ c0) (cs : List Nat)
    (hcs : ∀ c ∈ cs, 1 ≤ c) (hsum : E - 1 ≤ cs.sum) (hcsne : cs ≠ []) :
    runSchedule root fetchPage exBase cs none =
      some (extract_products root fetchPage c0 exBase none) ∧
    extract_products root fetchPage c0 exBase none =
      { state := { page := ((E - 1 : Nat) : Int) },
        rows := pureRows pages 1 (E - 1) } := by
  have hfull : extract_products root fetchPage c0 exBase none =
      { state := { page := ((E - 1 : Nat) : Int) },
        rows := pureRows pages 1 (E - 1) } := by
    have hw := window_run hf hempty hne hdisj hE1 c0 (by omega) none 0 rfl (by omega)
    simp only [rowsOf, List.nil_append, Nat.cast_zero, zero_add, Nat.sub_zero,
      Nat.zero_add] at hw
    have e : min c0 (E - 1) = E - 1 := by omega
    rw [e] at hw
    exact hw
  refine ⟨?_, hfull⟩
  rw [hfull]
  cases cs with
  | nil => exact absurd rfl hcsne
  | cons c cs' =>
    show runSchedule root fetchPage exBase cs'
        (some (extract_products root fetchPage c exBase none)) = _
    have hw := window_run hf hempty hne hdisj hE1 c (hcs c (List.mem_cons_self _ _))
      none 0 rfl (by omega)
    simp only [rowsOf, List.nil_append, Nat.cast_zero, zero_add, Nat.sub_zero,
      Nat.zero_add] at hw
    rw [hw]
    have hinv := schedule_invariant hf hempty hne hdisj hE1 cs' (min c (E - 1))
      (by omega) (fun c' hc' => hcs c' (List.mem_cons_of_mem _ hc'))
    rw [hinv]
    have e : min (min c (E - 1) + List.sum cs') (E - 1) = E - 1 := by
      have hsc : (c :: cs').sum = c + cs'.sum := List.sum_cons
      omega
    rw [e]

theorem C1_resume_equivalence_witness :
    runSchedule exBase (fetchOfA apW1) exBase [1, 1, 1] none =
      some (extract_products exBase (fetchOfA apW1) 3 exBase none) ∧
    extract_products exBase (fetchOfA apW1) 3 exBase none =
      { state := { page := ((3 - 1 : Nat) : Int) },
        rows := pureRows (fun i => extract_links exBase "products" (apW1 i)) 1 (3 - 1) } :=
  @C1_resume_equivalence exBase (fetchOfA apW1)
    (fun i => extract_links exBase "products" (apW1 i)) 3
    (fun i => by rw [fetchOfA_pageUrl])
    (by decide)
    (by
      intro i h1 h2
      have h : i = 1 ∨ i = 2 := by omega
      rcases h with rfl | rfl
      · decide
      · decide)
    (by
      intro i j h1 h2 h3
      have h : i = 1 ∧ j = 2 := by omega
      obtain ⟨rfl, rfl⟩ := h
      decide)
    (by decide) 3 (by decide) [1, 1, 1] (by decide) (by decide) (by decide)

end Scraper
